import Mathlib

/-!
# nCine / Jazz2 frame pipeline: embedding and verified properties

A shallow embedding of the frame loop (`Application::step`), of the screen
viewport resize path, of the HUD draw guard, and of the render queue and
transform tree the frame pipeline rests on.  Calls whose effect is external
(handler callbacks, the graphics device, the audio device, timers) are recorded
as events of a trace, in program order.
-/

namespace nCine

/-! ## Application: the frame step and the resize entry point -/

/-- External calls made by `Application`, recorded in program order. -/
inductive Event where
  | frameTimerAddFrame
  | onFrameStart
  | viewportUpdate
  | onPostUpdate
  | viewportVisit
  | viewportSortAndCommitQueue
  | viewportDraw
  | audioUpdatePlayers
  | onFrameEnd
  | gfxDeviceUpdate
  | setWaitableTimer (dueTime : Int)
  | waitForSingleObject (milliseconds : Nat)
  | cancelWaitableTimer
  | timerSleep
  | viewportResize (width height : Int)
  | onResizeWindow (width height : Int)
  deriving DecidableEq, Repr

/-- The two fields of `AppConfiguration` read by `Application::step`. -/
structure AppConfiguration where
  withScenegraph : Bool
  frameLimit : Int
  deriving DecidableEq, Repr

/-- What the clock shows while `Application::step` runs its end-of-frame wait.
`windows` selects the `DEATH_TARGET_WINDOWS` branch, which reads
`clock().frequency()` and `frameTimer_->frameIntervalAsTicks()` once; on the
other branch `sleepPolls` is the number of times the loop condition
`frameInterval() < frameTimeDuration` held before it failed. -/
structure FrameClock where
  windows : Bool
  clockFreq : Nat
  frameIntervalAsTicks : Nat
  sleepPolls : Nat
  deriving DecidableEq, Repr

/-- Width of `std::uint64_t`. -/
def u64 : Nat := 2 ^ 64

/-- `clockFreq / static_cast<std::uint64_t>(appCfg_.frameLimit)`. -/
def frameTimeDuration (frameLimit : Int) (clock : FrameClock) : Nat :=
  (clock.clockFreq % u64) / (frameLimit.toNat % u64)

/-- `frameTimeDuration - frameTimer_->frameIntervalAsTicks()` in `std::uint64_t`. -/
def remainingTime (frameLimit : Int) (clock : FrameClock) : Nat :=
  (frameTimeDuration frameLimit clock + u64 - clock.frameIntervalAsTicks % u64) % u64

/-- `-(LONGLONG)((10000000ULL * remainingTime) / clockFreq)`. -/
def dueTime (frameLimit : Int) (clock : FrameClock) : Int :=
  let q : Nat := ((10000000 * remainingTime frameLimit clock) % u64) / (clock.clockFreq % u64)
  let s : Int := if q < 2 ^ 63 then (q : Int) else (q : Int) - (u64 : Int)
  if s = -(2 ^ 63 : Int) then s else -s

/-- The block `if (appCfg_.frameLimit > 0) { ... }` closing `Application::step`. -/
def frameLimitWait (cfg : AppConfiguration) (clock : FrameClock) : List Event :=
  if cfg.frameLimit > 0 then
    if clock.windows then
      if remainingTime cfg.frameLimit clock > 0 then
        [Event.setWaitableTimer (dueTime cfg.frameLimit clock),
         Event.waitForSingleObject 1000,
         Event.cancelWaitableTimer]
      else []
    else List.replicate clock.sleepPolls Event.timerSleep
  else []

/-- The size fields of the screen viewport and the orthographic projection
values of its camera (`Camera::ProjectionValues`: left, right, top, bottom). -/
structure ScreenViewport where
  width_ : Int
  height_ : Int
  viewportRect_ : Int × Int × Int × Int
  left : Int
  right : Int
  top : Int
  bottom : Int
  deriving DecidableEq, Repr

/-- Modelled from the spec: the body of `ScreenViewport::resize` is not part of
the sources at hand (only its declaration, documented as "Changes the size,
viewport rectangle and projection matrix of the screen viewport").  After
`resize(w,h)` the camera projection extent and the render-target dimensions both
equal `(w,h)`: the size fields take the arguments, the viewport rectangle
becomes `(0, 0, w, h)` and the camera gets the orthographic projection
`(0, w, 0, h)`. -/
def ScreenViewport.resize (v : ScreenViewport) (width height : Int) : ScreenViewport :=
  { v with
    width_ := width, height_ := height,
    viewportRect_ := (0, 0, width, height),
    left := 0, right := width, top := 0, bottom := height }

/-- Render-target dimensions of the viewport. -/
def ScreenViewport.size (v : ScreenViewport) : Int × Int := (v.width_, v.height_)

/-- The part of `Application` the step and resize paths touch. -/
structure Application where
  appCfg_ : AppConfiguration
  screenViewport_ : Option ScreenViewport
  deriving DecidableEq, Repr

/-- `Application::step`: the trace of one frame.  With the scenegraph enabled the
step calls `screenViewport_->update()` and the three calls after it through the
pointer without a null check, so it has a result only when the screen viewport
exists (`initCommon` creates it whenever the scenegraph is enabled). -/
def Application.step (app : Application) (clock : FrameClock) : Option (List Event) :=
  if app.appCfg_.withScenegraph then
    match app.screenViewport_ with
    | none => none
    | some _ =>
      some ([Event.frameTimerAddFrame, Event.onFrameStart]
        ++ [Event.viewportUpdate, Event.onPostUpdate, Event.viewportVisit,
            Event.viewportSortAndCommitQueue, Event.viewportDraw]
        ++ [Event.audioUpdatePlayers, Event.onFrameEnd, Event.gfxDeviceUpdate]
        ++ frameLimitWait app.appCfg_ clock)
  else
    some ([Event.frameTimerAddFrame, Event.onFrameStart]
      ++ [Event.audioUpdatePlayers, Event.onFrameEnd, Event.gfxDeviceUpdate]
      ++ frameLimitWait app.appCfg_ clock)

/-- `Application::resizeScreenViewport`: the new application state and the
calls made. -/
def Application.resizeScreenViewport (app : Application) (width height : Int) :
    Application × List Event :=
  match app.screenViewport_ with
  | none => (app, [])
  | some v =>
    let sizeChanged : Bool := width != v.width_ || height != v.height_
    let app1 : Application := { app with screenViewport_ := some (v.resize width height) }
    if sizeChanged && decide (width > 0) && decide (height > 0) then
      (app1, [Event.viewportResize width height, Event.onResizeWindow width height])
    else
      (app1, [Event.viewportResize width height])

/-- The calls of a frame that go to the screen viewport. -/
def Event.isViewportCall : Event → Bool
  | .viewportUpdate => true
  | .viewportVisit => true
  | .viewportSortAndCommitQueue => true
  | .viewportDraw => true
  | _ => false

/-! ## Render queue: sort and commit -/

/-- Material-compatibility class of a render command: shader identity, blend
preset and bound texture identity. -/
structure MaterialClass where
  shader : Nat
  blend : Nat
  texture : Nat
  deriving DecidableEq, Repr

/-- Per-instance data of one command: the transform snapshot (a 4x4 matrix, row
by row) and the payload destined for the uniform block (color, sprite rectangle,
size). -/
structure InstanceData where
  transform : List Int
  color : Nat
  texRect : Int × Int × Int × Int
  spriteSize : Int × Int
  deriving DecidableEq, Repr

/-- One potential draw: layer (16 bit, lower draws first), material class and
per-instance data. -/
structure RenderCommand where
  layer : Nat
  cls : MaterialClass
  inst : InstanceData
  deriving DecidableEq, Repr

/-- A queued command together with its insertion index. -/
structure QueuedCommand where
  index : Nat
  cmd : RenderCommand
  deriving DecidableEq, Repr

/-- Modelled from the spec: `RenderQueue` is not part of the sources at hand
(only calls of `RenderQueue::addCommand` are).  The queue is the ordered
sequence of the commands submitted during the visit pass of the current frame. -/
structure RenderQueue where
  commands : List QueuedCommand
  deriving DecidableEq, Repr

/-- The queue of a frame before any command is submitted. -/
def RenderQueue.empty : RenderQueue := ⟨[]⟩

/-- Modelled from the spec: `RenderQueue::addCommand` (body absent) appends the
command, remembering its position of insertion. -/
def RenderQueue.addCommand (q : RenderQueue) (c : RenderCommand) : RenderQueue :=
  ⟨q.commands ++ [⟨q.commands.length, c⟩]⟩

/-- The queue after the commands of `cmds` were submitted in order. -/
def RenderQueue.ofCommands (cmds : List RenderCommand) : RenderQueue :=
  cmds.foldl RenderQueue.addCommand RenderQueue.empty

/-- Modelled from the spec: the sort key of the render queue (whose source is
absent), most to least significant: layer, material-compatibility class (shader
identity, blend preset, texture identity), original insertion order. -/
def QueuedCommand.keyLe (a b : QueuedCommand) : Prop :=
  a.cmd.layer < b.cmd.layer ∨ (a.cmd.layer = b.cmd.layer ∧
    (a.cmd.cls.shader < b.cmd.cls.shader ∨ (a.cmd.cls.shader = b.cmd.cls.shader ∧
      (a.cmd.cls.blend < b.cmd.cls.blend ∨ (a.cmd.cls.blend = b.cmd.cls.blend ∧
        (a.cmd.cls.texture < b.cmd.cls.texture ∨ (a.cmd.cls.texture = b.cmd.cls.texture ∧
          a.index ≤ b.index)))))))

instance QueuedCommand.keyLe.decidable : DecidableRel QueuedCommand.keyLe := by
  intro a b
  unfold QueuedCommand.keyLe
  infer_instance

instance keyLe_isTotal : IsTotal QueuedCommand QueuedCommand.keyLe :=
  ⟨fun a b => by unfold QueuedCommand.keyLe; omega⟩

instance keyLe_isTrans : IsTrans QueuedCommand QueuedCommand.keyLe :=
  ⟨fun a b c hab hbc => by unfold QueuedCommand.keyLe at *; omega⟩

/-- Modelled from the spec: the sort step of the render queue (source absent),
ordering the queued commands by `QueuedCommand.keyLe`. -/
def RenderQueue.sort (q : RenderQueue) : List QueuedCommand :=
  q.commands.insertionSort QueuedCommand.keyLe

/-- A batch: the material class shared by its commands and the packed
per-instance data, in order. -/
structure Batch where
  cls : MaterialClass
  instances : List InstanceData
  deriving DecidableEq, Repr

/-- Instance capacity of a uniform block:
`floor(block-byte-budget / per-instance-stride)`. -/
def instanceCapacity (blockByteBudget instanceStride : Nat) : Nat :=
  blockByteBudget / instanceStride

/-- The batch opened with command `c`. -/
def Batch.opened (c : RenderCommand) : Batch := ⟨c.cls, [c.inst]⟩

/-- Modelled from the spec: whether command `c` joins the current batch: (i) its
material class equals the batch's and (ii) the batch's instance count has not
reached the capacity.  Condition (iii), that no intervening command altered
global state the batch depends on, holds of every command here: the queue is a
sequence of render commands, and a render command describes one draw and alters
no global state. -/
def Batch.accepts (capacity : MaterialClass → Nat) (b : Batch) (c : RenderCommand) : Bool :=
  decide (c.cls = b.cls) && decide (b.instances.length < capacity b.cls)

/-- Modelled from the spec: the single walk of commit over the commands that
follow the first one, `cur` being the batch currently open.  On join the
command's data is appended to the batch; on refusal the batch is closed and a
new one is opened with the rejected command. -/
def commitWalk (capacity : MaterialClass → Nat) : Batch → List RenderCommand → List Batch
  | cur, [] => [cur]
  | cur, c :: rest =>
    if cur.accepts capacity c then
      commitWalk capacity { cur with instances := cur.instances ++ [c.inst] } rest
    else
      cur :: commitWalk capacity (Batch.opened c) rest

/-- Instance capacity of the uniform block of a material class, `stride` giving
the per-instance payload size of each shader. -/
def RenderQueue.capacity (blockByteBudget : Nat) (stride : Nat → Nat) (k : MaterialClass) : Nat :=
  instanceCapacity blockByteBudget (stride k.shader)

/-- Modelled from the spec: the commit (batching) step of the render queue
(source absent) over the sorted commands.  Zero commands make it a no-op; a
command whose payload alone exceeds the block budget (capacity zero) is a fatal
configuration error, reported as `none`. -/
def RenderQueue.commit (blockByteBudget : Nat) (stride : Nat → Nat)
    (cmds : List RenderCommand) : Option (List Batch) :=
  if cmds.all (fun c => decide (0 < RenderQueue.capacity blockByteBudget stride c.cls)) then
    match cmds with
    | [] => some []
    | c :: rest =>
      some (commitWalk (RenderQueue.capacity blockByteBudget stride) (Batch.opened c) rest)
  else none

/-- The commands of a batch sequence, each tagged with the class of its batch, in
batch order. -/
def Batch.contents (batches : List Batch) : List (MaterialClass × InstanceData) :=
  batches.flatMap (fun b => b.instances.map (fun x => (b.cls, x)))

/-- Why a batch was closed before the next one was opened: the class changed or
the capacity was reached. -/
def Batch.closedBefore (capacity : MaterialClass → Nat) (b1 b2 : Batch) : Prop :=
  b1.cls ≠ b2.cls ∨ b1.instances.length = capacity b1.cls

/-- Sort then commit the queue of a frame. -/
def RenderQueue.sortAndCommit (blockByteBudget : Nat) (stride : Nat → Nat)
    (q : RenderQueue) : Option (List Batch) :=
  RenderQueue.commit blockByteBudget stride (q.sort.map QueuedCommand.cmd)

/-- The scenario of ten drawables on one layer: six of class A, then four of
class B, each carrying its position as color. -/
def scenarioCommands : List RenderCommand :=
  (List.range 6).map (fun i => ⟨0, ⟨1, 0, 1⟩, ⟨[], i, (0, 0, 0, 0), (0, 0)⟩⟩)
    ++ (List.range 4).map (fun i => ⟨0, ⟨2, 0, 2⟩, ⟨[], 6 + i, (0, 0, 0, 0), (0, 0)⟩⟩)

/-! ## Transform tree -/

/-- A transform: the affine part (linear 2x2 block and translation) of a node's
4x4 matrix, over exact integers. -/
structure Transform where
  a : Int
  b : Int
  c : Int
  d : Int
  tx : Int
  ty : Int
  deriving DecidableEq, Repr

/-- The identity transform. -/
def Transform.identity : Transform := ⟨1, 0, 0, 1, 0, 0⟩

/-- Composition `p * l`: apply `l`, then `p`. -/
def Transform.mul (p l : Transform) : Transform :=
  ⟨p.a * l.a + p.b * l.c, p.a * l.b + p.b * l.d,
   p.c * l.a + p.d * l.c, p.c * l.b + p.d * l.d,
   p.a * l.tx + p.b * l.ty + p.tx, p.c * l.tx + p.d * l.ty + p.ty⟩

instance Transform.instMul : Mul Transform := ⟨Transform.mul⟩

/-- The two kinds of node the transform step tells apart: a plain scene node, and
a `Particle` with its flag `inLocalSpace_`. -/
inductive NodeKind where
  | node
  | particle (inLocalSpace : Bool)
  deriving DecidableEq, Repr

/-- Modelled from the spec: `SceneNode` is not part of the sources at hand.  A
transform node holds its parent reference, the ordered collection of its
children, the local transform, the cached absolute transform with the frame
stamp of its last recomputation, the dirty flag, and whether it takes part in
the traversal (a node may opt out of it: the disabled state). -/
structure SceneNode where
  parent_ : Option Nat
  children_ : List Nat
  localTransform : Transform
  absoluteTransform : Transform
  dirty : Bool
  lastUpdateFrame : Nat
  kind : NodeKind
  enabled : Bool
  deriving DecidableEq, Repr

/-- An arena of nodes addressed by their index. -/
structure SceneGraph where
  nodes : List SceneNode
  deriving DecidableEq, Repr

/-- Number of nodes of the arena. -/
def SceneGraph.size (g : SceneGraph) : Nat := g.nodes.length

/-- The parent of node `n`, if it has one. -/
def SceneGraph.parentOf (g : SceneGraph) (n : Nat) : Option Nat :=
  g.nodes[n]?.bind SceneNode.parent_

/-- The `k`-th ancestor of node `n` (`n` itself for `k = 0`). -/
def SceneGraph.ancestor (g : SceneGraph) : Nat → Nat → Option Nat
  | 0, n => some n
  | k + 1, n => (g.parentOf n).bind (g.ancestor k)

/-- Outcome of walking the parent chain in search of a node. -/
inductive Walk where
  | found
  | root
  | exhausted
  deriving DecidableEq, Repr

/-- Walk the parent chain upward from `cur`, at most `fuel` steps, looking for
`target`: `found` when met, `root` when the chain ended without meeting it. -/
def SceneGraph.walkUp (g : SceneGraph) : Nat → Nat → Nat → Walk
  | 0, cur, target => if cur = target then Walk.found else Walk.exhausted
  | fuel + 1, cur, target =>
    if cur = target then Walk.found
    else
      match g.parentOf cur with
      | none => Walk.root
      | some p => g.walkUp fuel p target

/-- Whether node `x` lies in the subtree of node `n` (`n` included). -/
def SceneGraph.inSubtree (g : SceneGraph) (n x : Nat) : Bool :=
  g.walkUp g.size x n == Walk.found

/-- Apply a function to every node of a list, passing the node's index. -/
def mapNodes (f : Nat → SceneNode → SceneNode) : Nat → List SceneNode → List SceneNode
  | _, [] => []
  | i, nd :: rest => f i nd :: mapNodes f (i + 1) rest

/-- What `setLocalTransform` on node `n` does to the node of index `i`. -/
def SceneGraph.setLocalNode (g : SceneGraph) (n : Nat) (t : Transform) (i : Nat)
    (nd : SceneNode) : SceneNode :=
  if i = n then { nd with localTransform := t, dirty := true }
  else if g.inSubtree n i then { nd with dirty := true }
  else nd

/-- Modelled from the spec: `setLocalTransform` (SceneNode source absent) stores
the local transform of node `n` and propagates the dirty flag down to the whole
subtree of `n`. -/
def SceneGraph.setLocalTransform (g : SceneGraph) (n : Nat) (t : Transform) : SceneGraph :=
  ⟨mapNodes (g.setLocalNode n t) 0 g.nodes⟩

/-- What `detach` of node `child` does to the node of index `i`. -/
def SceneGraph.detachNode (g : SceneGraph) (child i : Nat) (nd : SceneNode) : SceneNode :=
  let nd1 : SceneNode := if i = child then { nd with parent_ := none } else nd
  let nd2 : SceneNode :=
    if g.parentOf child = some i then { nd1 with children_ := nd1.children_.erase child }
    else nd1
  if g.inSubtree child i then { nd2 with dirty := true } else nd2

/-- Modelled from the spec: `detach()` (SceneNode source absent) removes the node
from its parent's children, clears its parent reference and invalidates the
cached transforms of its whole subtree. -/
def SceneGraph.detach (g : SceneGraph) (child : Nat) : SceneGraph :=
  ⟨mapNodes (g.detachNode child) 0 g.nodes⟩

/-- What a successful `attach` of node `child` to `newParent` does to the node of
index `i`. -/
def SceneGraph.attachNode (g : SceneGraph) (child newParent i : Nat) (nd : SceneNode) :
    SceneNode :=
  let nd1 : SceneNode := if i = child then { nd with parent_ := some newParent } else nd
  let nd2 : SceneNode :=
    if g.parentOf child = some i then { nd1 with children_ := nd1.children_.erase child }
    else nd1
  let nd3 : SceneNode :=
    if i = newParent then { nd2 with children_ := nd2.children_ ++ [child] } else nd2
  if g.inSubtree child i then { nd3 with dirty := true } else nd3

/-- Modelled from the spec: `attach(parent)` (SceneNode source absent).  Attaching
a node to itself or to a node of its own subtree is rejected: the parent chain of
the new parent is walked, and the attach reports failure, leaving the arena
untouched, unless the chain ends without meeting the node.  Otherwise ownership
is transferred from the old parent to the new one and the cached transforms of
the whole subtree are invalidated. -/
def SceneGraph.attach (g : SceneGraph) (child newParent : Nat) : Bool × SceneGraph :=
  if child < g.size ∧ newParent < g.size ∧ g.walkUp g.size newParent child = Walk.root then
    (true, ⟨mapNodes (g.attachNode child newParent) 0 g.nodes⟩)
  else (false, g)

/-- The parent relation has no cycle: no node is its own ancestor at a positive
distance. -/
def SceneGraph.Acyclic (g : SceneGraph) : Prop :=
  ∀ n k, 0 < k → g.ancestor k n ≠ some n

/-- Modelled from the spec: the transform step of one node (SceneNode source
absent), given the absolute transform of its parent, if it has one.  A scene
node composes the parent's absolute transform with its local transform; a root
takes its local transform.  A `Particle` overrides the step; the body of
`Particle::transform` is not part of the sources at hand, so it is the parameter
`pt`, applied to the flag `inLocalSpace_`, the parent's absolute transform (the
identity without a parent) and the local transform. -/
def SceneNode.transform (pt : Bool → Transform → Transform → Transform) (nd : SceneNode)
    (parentAbsolute : Option Transform) : Transform :=
  match nd.kind with
  | NodeKind.node =>
    match parentAbsolute with
    | none => nd.localTransform
    | some a => a * nd.localTransform
  | NodeKind.particle inLocalSpace =>
    pt inLocalSpace (parentAbsolute.getD Transform.identity) nd.localTransform

/-- A mutation of the transform tree between two frames. -/
inductive TreeMutation where
  | setLocalTransform (node : Nat) (t : Transform)
  | attach (child newParent : Nat)
  | detach (child : Nat)
  deriving DecidableEq, Repr

/-- The node a mutation is applied to. -/
def TreeMutation.target : TreeMutation → Nat
  | .setLocalTransform node _ => node
  | .attach child _ => child
  | .detach child => child

/-- A parent with a translation and scale, a child in local space and a particle
that is not in local space, all clean at frame 0. -/
def sampleGraph : SceneGraph :=
  ⟨[⟨none, [1, 2], ⟨2, 0, 0, 2, 10, 0⟩, ⟨2, 0, 0, 2, 10, 0⟩, false, 0, NodeKind.node, true⟩,
    ⟨some 0, [], ⟨1, 0, 0, 1, 1, 1⟩, ⟨2, 0, 0, 2, 12, 2⟩, false, 0, NodeKind.node, true⟩,
    ⟨some 0, [], ⟨1, 0, 0, 1, 1, 1⟩, ⟨1, 0, 0, 1, 1, 1⟩, false, 0, NodeKind.particle false,
      true⟩]⟩

/-- A structural change of the transform tree. -/
inductive TreeCall where
  | attach (child newParent : Nat)
  | detach (child : Nat)
  deriving DecidableEq, Repr

/-- The arena after one structural change. -/
def SceneGraph.call (g : SceneGraph) : TreeCall → SceneGraph
  | .attach child newParent => (g.attach child newParent).2
  | .detach child => g.detach child

/-- The arena after a sequence of structural changes. -/
def SceneGraph.calls (g : SceneGraph) (cs : List TreeCall) : SceneGraph :=
  cs.foldl SceneGraph.call g

/-- How the arena `g2` after a mutation of node `c` relates to the arena `g`
before it: the same nodes, caches, stamps, kinds and enabled flags; the subtree
of `c` is dirty in addition; outside that subtree parents and local transforms
are kept. -/
structure SceneGraph.Touches (g : SceneGraph) (c : Nat) (g2 : SceneGraph) : Prop where
  len : g2.nodes.length = g.nodes.length
  node : ∀ (x : Nat) (nd : SceneNode), g.nodes[x]? = some nd →
    ∃ nd2, g2.nodes[x]? = some nd2
      ∧ nd2.absoluteTransform = nd.absoluteTransform
      ∧ nd2.lastUpdateFrame = nd.lastUpdateFrame
      ∧ nd2.kind = nd.kind ∧ nd2.enabled = nd.enabled
      ∧ nd2.dirty = (nd.dirty || g.inSubtree c x)
      ∧ (g.inSubtree c x = false →
          nd2.parent_ = nd.parent_ ∧ nd2.localTransform = nd.localTransform)

/-- The dispatching tags of `Iterator.h`. -/
inductive IteratorTag where
  | Forward
  | Bidirectional
  | RandomAccess
  deriving DecidableEq, Repr

/-- The value of type `int` with the 32-bit pattern `n`: what an
`unsigned int` becomes when it is passed for an `int` parameter. -/
def toInt32 (n : Nat) : Int :=
  if n % 2 ^ 32 < 2 ^ 31 then ((n % 2 ^ 32 : Nat) : Int) else ((n % 2 ^ 32 : Nat) : Int) - 2 ^ 32

/-- The unary minus of `unsigned int`: `-n` modulo `2^32`. -/
def negUInt32 (n : Nat) : Nat := (2 ^ 32 - n % 2 ^ 32) % 2 ^ 32

/-- `advance(it, n, tag)`, an iterator being the position it stands at.  Random
access iterators do `it += n`; bidirectional ones step `--it` while `n++` is
non-zero for a negative `n` and `++it` while `n--` is non-zero otherwise;
forward ones step `++it` for a positive `n` only. -/
def advance (tag : IteratorTag) (it : Int) (n : Int) : Int :=
  match tag with
  | IteratorTag.RandomAccess => it + n
  | IteratorTag.Bidirectional =>
    if n < 0 then (fun p : Int => p - 1)^[(-n).toNat] it
    else (fun p : Int => p + 1)^[n.toNat] it
  | IteratorTag.Forward =>
    if n > 0 then (fun p : Int => p + 1)^[n.toNat] it else it

/-- `next(it, n)` with `unsigned int n`: `advance(it, n)`. -/
def next (tag : IteratorTag) (it : Int) (n : Nat) : Int :=
  advance tag it (toInt32 n)

/-- `prev(it, n)` with `unsigned int n`: `advance(it, -n)`. -/
def prev (tag : IteratorTag) (it : Int) (n : Nat) : Int :=
  advance tag it (toInt32 (negUInt32 n))

/-! ## GLHashMap -/

/-- Buffer object target of the OpenGL headers. -/
def GL_ARRAY_BUFFER : Nat := 0x8892

/-- Buffer object target of the OpenGL headers. -/
def GL_ELEMENT_ARRAY_BUFFER : Nat := 0x8893

/-- Buffer object target of the OpenGL headers. -/
def GL_UNIFORM_BUFFER : Nat := 0x8A11

/-- Buffer object target of the OpenGL headers. -/
def GL_PIXEL_PACK_BUFFER : Nat := 0x88EB

/-- Buffer object target of the OpenGL headers. -/
def GL_PIXEL_UNPACK_BUFFER : Nat := 0x88EC

/-- Buffer object and texture target of the OpenGL headers. -/
def GL_TEXTURE_BUFFER : Nat := 0x8C2A

/-- Texture target of the OpenGL headers. -/
def GL_TEXTURE_1D : Nat := 0x0DE0

/-- Texture target of the OpenGL headers. -/
def GL_TEXTURE_2D : Nat := 0x0DE1

/-- Texture target of the OpenGL headers. -/
def GL_TEXTURE_3D : Nat := 0x806F

/-- `GLBufferObjectMappingFunc::Size`. -/
def GLBufferObjectMappingFunc.Size : Nat := 6

/-- `GLBufferObjectMappingFunc::operator()` (build without `WITH_OPENGLES`).  The
default case reports a fatal message and leaves the value 0. -/
def GLBufferObjectMappingFunc (key : Nat) : Nat :=
  if key = GL_ARRAY_BUFFER then 0
  else if key = GL_ELEMENT_ARRAY_BUFFER then 1
  else if key = GL_UNIFORM_BUFFER then 2
  else if key = GL_PIXEL_PACK_BUFFER then 3
  else if key = GL_PIXEL_UNPACK_BUFFER then 4
  else if key = GL_TEXTURE_BUFFER then 5
  else 0

/-- `GLTextureMappingFunc::Size`. -/
def GLTextureMappingFunc.Size : Nat := 4

/-- `GLTextureMappingFunc::operator()` (build without `WITH_OPENGLES`).  The
default case reports a fatal message and leaves the value 0. -/
def GLTextureMappingFunc (key : Nat) : Nat :=
  if key = GL_TEXTURE_1D then 0
  else if key = GL_TEXTURE_2D then 1
  else if key = GL_TEXTURE_3D then 2
  else if key = GL_TEXTURE_BUFFER then 3
  else 0

/-- The buffer targets with a case in `GLBufferObjectMappingFunc`. -/
def bufferTargets : List Nat :=
  [GL_ARRAY_BUFFER, GL_ELEMENT_ARRAY_BUFFER, GL_UNIFORM_BUFFER, GL_PIXEL_PACK_BUFFER,
   GL_PIXEL_UNPACK_BUFFER, GL_TEXTURE_BUFFER]

/-- The texture targets with a case in `GLTextureMappingFunc`. -/
def textureTargets : List Nat :=
  [GL_TEXTURE_1D, GL_TEXTURE_2D, GL_TEXTURE_3D, GL_TEXTURE_BUFFER]

/-- `GLHashMap<S, MappingFunc>`: the array `buckets_`. -/
structure GLHashMap where
  buckets_ : List Nat
  deriving DecidableEq, Repr

/-- The constructor `GLHashMap()`: every one of the `S` buckets holds the null
object id 0. -/
def GLHashMap.new (S : Nat) : GLHashMap := ⟨List.replicate S 0⟩

/-- Reading through `operator[]`: the value of `buckets_[mappingFunc(key)]`. -/
def GLHashMap.read (mappingFunc : Nat → Nat) (m : GLHashMap) (key : Nat) : Nat :=
  m.buckets_.getD (mappingFunc key) 0

/-- Writing through `operator[]`: `buckets_[mappingFunc(key)] = value`. -/
def GLHashMap.write (mappingFunc : Nat → Nat) (m : GLHashMap) (key value : Nat) : GLHashMap :=
  ⟨m.buckets_.set (mappingFunc key) value⟩

/-! ## Pass nodes: visit-order state -/

/-- The visit-order state of a scene node: `SceneNode::VisitOrderState::Disabled`,
or another member of the enumeration. -/
inductive VisitOrderState where
  | Disabled
  | other (member : Nat)
  deriving DecidableEq, Repr

/-- The part of the `SceneNode` base of a pass node that its constructor sets. -/
structure SceneNodeBase where
  visitOrderState : VisitOrderState
  deriving DecidableEq, Repr

/-- Modelled from the spec: `SceneNode::setVisitOrderState` (SceneNode source
absent) stores the given state in the node. -/
def SceneNodeBase.setVisitOrderState (n : SceneNodeBase) (s : VisitOrderState) :
    SceneNodeBase :=
  { n with visitOrderState := s }

end nCine

namespace Jazz2

open nCine

/-- `LevelHandler::LightingRenderer` after construction: its scene-node base, the
owner, the render command count and the reserved light cache capacity. -/
structure LightingRenderer where
  base : SceneNodeBase
  owner : Nat
  renderCommandsCount : Int
  emittedLightsCacheCapacity : Nat
  deriving DecidableEq, Repr

/-- The constructor `LightingRenderer(LevelHandler* owner)`; `base0` is the node
as the constructor of `SceneNode` left it. -/
def LightingRenderer.new (base0 : SceneNodeBase) (owner : Nat) : LightingRenderer :=
  ⟨base0.setVisitOrderState VisitOrderState.Disabled, owner, 0, 32⟩

/-- `LevelHandler::BlurRenderPass` after construction. -/
structure BlurRenderPass where
  base : SceneNodeBase
  owner : Nat
  deriving DecidableEq, Repr

/-- The constructor `BlurRenderPass(LevelHandler* owner)`. -/
def BlurRenderPass.new (base0 : SceneNodeBase) (owner : Nat) : BlurRenderPass :=
  ⟨base0.setVisitOrderState VisitOrderState.Disabled, owner⟩

/-- `LevelHandler::CombineRenderer` after construction. -/
structure CombineRenderer where
  base : SceneNodeBase
  owner : Nat
  deriving DecidableEq, Repr

/-- The constructor `CombineRenderer(LevelHandler* owner)`. -/
def CombineRenderer.new (base0 : SceneNodeBase) (owner : Nat) : CombineRenderer :=
  ⟨base0.setVisitOrderState VisitOrderState.Disabled, owner⟩

end Jazz2

namespace Jazz2.UI

open nCine

/-- `UpscaleRenderPass::AntialiasingSubpass` after construction. -/
structure AntialiasingSubpass where
  base : SceneNodeBase
  deriving DecidableEq, Repr

/-- The constructor `AntialiasingSubpass()`. -/
def AntialiasingSubpass.new (base0 : SceneNodeBase) : AntialiasingSubpass :=
  ⟨base0.setVisitOrderState VisitOrderState.Disabled⟩

/-- `UpscaleRenderPass` after construction: its scene-node base, the member
`_antialiasing` and the resize shader. -/
structure UpscaleRenderPass where
  base : SceneNodeBase
  antialiasing : AntialiasingSubpass
  resizeShader : Option Nat
  deriving DecidableEq, Repr

/-- The constructor `UpscaleRenderPass()`; `base0` and `subpassBase0` are the
node and its `_antialiasing` member as the constructor of `SceneNode` left them. -/
def UpscaleRenderPass.new (base0 subpassBase0 : SceneNodeBase) : UpscaleRenderPass :=
  ⟨base0.setVisitOrderState VisitOrderState.Disabled, AntialiasingSubpass.new subpassBase0, none⟩

/-- `UpscaleRenderPassWithClipping` after construction: the `UpscaleRenderPass`
it derives from. -/
structure UpscaleRenderPassWithClipping where
  toUpscaleRenderPass : UpscaleRenderPass
  deriving DecidableEq, Repr

/-- The constructor `UpscaleRenderPassWithClipping() : UpscaleRenderPass()`. -/
def UpscaleRenderPassWithClipping.new (base0 subpassBase0 : SceneNodeBase) :
    UpscaleRenderPassWithClipping :=
  ⟨UpscaleRenderPass.new base0 subpassBase0⟩

/-! ## HUD: the draw entry point -/

/-- States of the HUD fade transition. -/
inductive TransitionState where
  | None
  | FadeIn
  | FadeOut
  | WaitingForFadeOut
  deriving DecidableEq, Repr

/-- The fields of `HUD` that `HUD::OnDraw` branches on: the graphics table of the
"UI/HUD" metadata (`_graphics`, null when the metadata is missing; here the names
it holds with their texture identity), the transition state and time, the
players of the level and the view size. -/
structure HUD where
  graphics : Option (List (String × Nat))
  transitionState : TransitionState
  transitionTime : Nat
  players : List Nat
  viewSize : Int × Int
  deriving DecidableEq, Repr

/-- The command rented and queued by `HUD::OnDraw` while fading in or out: the
transition shader with alpha blending on layer 999, identity transform, texture
rectangle `(1, 0, 1, 0)`, the view size as sprite size and the transition time
as alpha. -/
def HUD.transitionCommand (hud : HUD) (transitionShader alphaBlend : Nat) : RenderCommand :=
  ⟨999, ⟨transitionShader, alphaBlend, 0⟩,
    ⟨[1, 0, 0, 0, 0, 1, 0, 0, 0, 0, 1, 0, 0, 0, 0, 1], hud.transitionTime, (1, 0, 1, 0),
      hud.viewSize⟩⟩

/-- `HUD::OnDraw`.  `canvasOnDraw` is the base call `Canvas::OnDraw(renderQueue)`
and `playerSection` the commands drawn for the first player (elements, strings,
weapon wheel, touch buttons), both as functions of what they read. -/
def HUD.OnDraw (hud : HUD) (canvasOnDraw : RenderQueue → RenderQueue)
    (playerSection : List (String × Nat) → Nat → List RenderCommand)
    (transitionShader alphaBlend : Nat) (renderQueue : RenderQueue) : Bool × RenderQueue :=
  let q1 := canvasOnDraw renderQueue
  match hud.graphics with
  | none => (false, q1)
  | some g =>
    let q2 :=
      match hud.players with
      | [] => q1
      | player :: _ => (playerSection g player).foldl RenderQueue.addCommand q1
    if hud.transitionState = TransitionState.FadeIn
        ∨ hud.transitionState = TransitionState.FadeOut then
      (true, q2.addCommand (hud.transitionCommand transitionShader alphaBlend))
    else
      (true, q2)

/-- Outcome of running code that may dereference a null pointer. -/
inductive Run (α : Type) where
  | done (value : α)
  | nullDereference
  deriving DecidableEq, Repr

/-- Whether the run came to its end without dereferencing null. -/
def Run.finished {α : Type} : Run α → Bool
  | Run.done _ => true
  | Run.nullDereference => false

/-- The fields of `HUD::TouchButtonInfo` set from data: the action, the graphics
entry found for the identifier (null when there is none), the current pointer id
and the alignment flags.  The four float extents, scaled from the arguments with
`LevelHandler::DefaultWidth`, are read by no branch and are left out. -/
structure TouchButtonInfo where
  Action : String
  Graphics : Option Nat
  CurrentPointerId : Int
  Align : List String
  deriving DecidableEq, Repr

/-- `HUD::CreateTouchButton`.  With a non-empty identifier it evaluates
`_graphics->find(...)`, which dereferences `_graphics` whatever its value. -/
def CreateTouchButton (graphics : Option (List (String × Nat))) (action identifier : String)
    (align : List String) : Run TouchButtonInfo :=
  if identifier ≠ "" then
    match graphics with
    | none => Run.nullDereference
    | some g => Run.done ⟨action, g.lookup identifier, -1, align⟩
  else
    Run.done ⟨action, none, -1, align⟩

/-- The ten calls of `CreateTouchButton` in the constructor of `HUD`, in order:
action, identifier (empty for `nullptr`) and alignment flags. -/
def touchButtonCalls : List (String × String × List String) :=
  [("None", "TouchDpad", ["BottomLeft"]),
   ("Up", "", ["BottomLeft"]),
   ("Down", "", ["BottomLeft"]),
   ("Left", "", ["BottomLeft", "AllowRollover"]),
   ("Right", "", ["BottomLeft", "AllowRollover"]),
   ("Fire", "TouchFire", ["BottomRight"]),
   ("Jump", "TouchJump", ["BottomRight"]),
   ("Run", "TouchRun", ["BottomRight"]),
   ("ChangeWeapon", "TouchChange", ["BottomRight"]),
   ("Menu", "TouchPause", ["TopRight", "Fixed"])]

/-- Run the calls of `CreateTouchButton` one after the other, stopping at the
first null dereference. -/
def createTouchButtons (graphics : Option (List (String × Nat))) :
    List (String × String × List String) → Run (List TouchButtonInfo)
  | [] => Run.done []
  | (action, identifier, align) :: rest =>
    match CreateTouchButton graphics action identifier align with
    | Run.nullDereference => Run.nullDereference
    | Run.done info =>
      match createTouchButtons graphics rest with
      | Run.nullDereference => Run.nullDereference
      | Run.done infos => Run.done (info :: infos)

/-- The constructor `HUD::HUD`.  `metadata` is what
`ContentResolver::RequestMetadata("UI/HUD")` returned (its graphics table, or
null); `_graphics` stays null when it is null.  The result is the `_graphics`
member and the touch buttons. -/
def HUD.construct (metadata : Option (List (String × Nat))) :
    Run (Option (List (String × Nat)) × List TouchButtonInfo) :=
  let graphics : Option (List (String × Nat)) :=
    match metadata with
    | some g => some g
    | none => none
  match createTouchButtons graphics touchButtonCalls with
  | Run.nullDereference => Run.nullDereference
  | Run.done buttons => Run.done (graphics, buttons)

end Jazz2.UI

namespace Death.FileSystem

/-! ## FileSystem: path functions and permissions (POSIX build) -/

/-- A path separator: `'/'` or `'\\'`. -/
def isSeparator (c : Char) : Bool := c == '/' || c == '\\'

/-- The character `path[i]`. -/
def charAt (path : List Char) (i : Nat) : Char := path.getD i ' '

/-- `GetPathRootLength` on the POSIX build (neither Android nor Switch): 1 when
the path starts with a separator, else 0. -/
def GetPathRootLength (path : List Char) : Nat :=
  match path with
  | [] => 0
  | c :: _ => if isSeparator c then 1 else 0

/-- `FileSystem::CombinePath(first, second)` on the POSIX build. -/
def CombinePath (first second : List Char) : List Char :=
  let firstSize := first.length
  let secondSize := second.length
  if secondSize = 0 then first
  else if firstSize = 0 ∨ GetPathRootLength second > 0 then second
  else if isSeparator (charAt first (firstSize - 1)) then first ++ second
  else first ++ ['/'] ++ second

/-- The loop `while (i > pathRootLength && isSeparator(path[i - 1])) i--;` that
strips trailing separators, started at `i`. -/
def stripTrailing (path : List Char) (pathRootLength : Nat) : Nat → Nat
  | 0 => 0
  | i + 1 =>
    if i + 1 > pathRootLength ∧ isSeparator (charAt path i) then
      stripTrailing path pathRootLength i
    else i + 1

/-- The loop `while (i > pathRootLength && path[--i] != '/' && path[i] != '\\');`
that looks for the last separator, started at `i`. -/
def scanBack (path : List Char) (pathRootLength : Nat) : Nat → Nat
  | 0 => 0
  | i + 1 =>
    if i + 1 > pathRootLength then
      if isSeparator (charAt path i) then i else scanBack path pathRootLength i
    else i + 1

/-- `path.slice(begin, end)`. -/
def slice (path : List Char) (b e : Nat) : List Char := (path.take e).drop b

/-- `FileSystem::GetDirectoryName`. -/
def GetDirectoryName (path : List Char) : List Char :=
  if path.isEmpty then []
  else
    let pathRootLength := GetPathRootLength path
    let i := stripTrailing path pathRootLength path.length
    if i ≤ pathRootLength then []
    else slice path 0 (scanBack path pathRootLength i)

/-- `FileSystem::GetFileName`. -/
def GetFileName (path : List Char) : List Char :=
  if path.isEmpty then []
  else
    let pathRootLength := GetPathRootLength path
    let pathLength := stripTrailing path pathRootLength path.length
    if pathLength ≤ pathRootLength then []
    else
      let i := scanBack path pathRootLength pathLength
      let i := if isSeparator (charAt path i) then i + 1 else i
      slice path i pathLength

/-- `StringView::findLastOr(c, end)`: the index of the last occurrence of `c`, if
there is one. -/
def findLast (c : Char) : List Char → Option Nat
  | [] => none
  | x :: xs =>
    match findLast c xs with
    | some i => some (i + 1)
    | none => if x = c then some 0 else none

/-- The lower-casing step `if (c >= 'A' && c <= 'Z') c |= 0x20;`. -/
def lowerAscii (c : Char) : Char :=
  if 'A'.toNat ≤ c.toNat ∧ c.toNat ≤ 'Z'.toNat then Char.ofNat (c.toNat ||| 0x20) else c

/-- `FileSystem::GetExtension`. -/
def GetExtension (path : List Char) : List Char :=
  let fileName := GetFileName path
  if fileName.isEmpty then []
  else
    match findLast '.' fileName with
    | none => []
    | some foundDot =>
      let initialDots := (fileName.take foundDot).all (fun c => c == '.')
      if initialDots then []
      else (fileName.drop (foundDot + 1)).map lowerAscii

/-- The path with its trailing separators stripped, the root (a leading
separator) being kept. -/
def stripped (path : List Char) : List Char :=
  path.take (GetPathRootLength path)
    ++ (path.drop (GetPathRootLength path)).rdropWhile isSeparator

/-- A character other than a path separator. -/
def notSeparator (c : Char) : Bool := !isSeparator c

/-- The part of a path after its final separator; the whole path when it holds
no separator. -/
def afterFinalSeparator (path : List Char) : List Char :=
  path.rtakeWhile notSeparator

/-- The part of a path that ends just before its final separator; empty when it
holds no separator. -/
def beforeFinalSeparator (path : List Char) : List Char :=
  (path.rdropWhile notSeparator).dropLast

/-- `FileSystem::GetFileNameWithoutExtension`. -/
def GetFileNameWithoutExtension (path : List Char) : List Char :=
  let fileName := GetFileName path
  if fileName.isEmpty then []
  else
    match findLast '.' fileName with
    | none => fileName
    | some foundDot =>
      let initialDots := (fileName.take foundDot).all (fun c => c == '.')
      if initialDots then fileName
      else fileName.take foundDot

/-- The first loop of `CombinePath(paths)`, from index `i` on: it computes the
size of the result and the index of the last rooted component, `startIdx`. -/
def scanPaths (count : Nat) : Nat → List (List Char) → Nat × Nat → Nat × Nat
  | _, [], state => state
  | i, p :: rest, (resultSize, startIdx) =>
    let pathSize := p.length
    if pathSize = 0 then scanPaths count (i + 1) rest (resultSize, startIdx)
    else
      let reset : Nat × Nat :=
        if GetPathRootLength p > 0 then (0, i) else (resultSize, startIdx)
      let resultSize := reset.1 + pathSize
      let resultSize :=
        if i + 1 < count ∧ ¬ isSeparator (charAt p (pathSize - 1)) = true then resultSize + 1
        else resultSize
      scanPaths count (i + 1) rest (resultSize, reset.2)

/-- The second loop of `CombinePath(paths)`, from index `i` on: every non-empty
component is copied to the end of what is written, followed by `'/'` when it is
not the last component and does not end with a separator. -/
def writePaths (count : Nat) : Nat → List (List Char) → List Char → List Char
  | _, [], written => written
  | i, p :: rest, written =>
    let pathSize := p.length
    if pathSize = 0 then writePaths count (i + 1) rest written
    else
      let written := written ++ p
      let written :=
        if i + 1 < count ∧ ¬ isSeparator (charAt p (pathSize - 1)) = true then written ++ ['/']
        else written
      writePaths count (i + 1) rest written

/-- `FileSystem::CombinePath(paths)` on the POSIX build: what the second loop
writes, starting at `startIdx`, into the result allocated with the size that the
first loop computed. -/
def CombinePaths (paths : List (List Char)) : List Char :=
  if paths.isEmpty then []
  else
    let count := paths.length
    let scanned := scanPaths count 0 paths (0, 0)
    writePaths count scanned.2 (paths.drop scanned.2) []

end Death.FileSystem

namespace nCine

theorem frameLimitWait_mem (cfg : AppConfiguration) (clock : FrameClock) (e : Event)
    (he : e ∈ frameLimitWait cfg clock) :
    (∃ d, e = Event.setWaitableTimer d) ∨ e = Event.waitForSingleObject 1000
      ∨ e = Event.cancelWaitableTimer ∨ e = Event.timerSleep := by
  unfold frameLimitWait at he
  split_ifs at he
  · simp only [List.mem_cons, List.mem_singleton, List.not_mem_nil, or_false] at he
    rcases he with h | h | h
    · exact Or.inl ⟨_, h⟩
    · exact Or.inr (Or.inl h)
    · exact Or.inr (Or.inr (Or.inl h))
  · simp at he
  · exact Or.inr (Or.inr (Or.inr (List.eq_of_mem_replicate he)))
  · simp at he

theorem frameLimitWait_filter (cfg : AppConfiguration) (clock : FrameClock) :
    (frameLimitWait cfg clock).filter Event.isViewportCall = [] := by
  rw [List.filter_eq_nil_iff]
  intro e he
  rcases frameLimitWait_mem cfg clock e he with ⟨d, h⟩ | h | h | h <;> subst h <;> simp [Event.isViewportCall]

theorem frameLimitWait_count (cfg : AppConfiguration) (clock : FrameClock) :
    (frameLimitWait cfg clock).count Event.gfxDeviceUpdate = 0 := by
  rw [List.count_eq_zero]
  intro he
  rcases frameLimitWait_mem cfg clock _ he with ⟨d, h⟩ | h | h | h <;> cases h

theorem frameLimitWait_getElem (cfg : AppConfiguration) (clock : FrameClock) (k : Nat) :
    (frameLimitWait cfg clock)[k]? ≠ some Event.viewportDraw := by
  intro h
  have hm : Event.viewportDraw ∈ frameLimitWait cfg clock := List.getElem?_mem h
  rcases frameLimitWait_mem cfg clock _ hm with ⟨d, h⟩ | h | h | h <;> cases h

/-- C1: with the scenegraph enabled and the screen viewport created, one call of
`Application::step` runs to its end and invokes the screen viewport's
`update()`, `visit()`, `sortAndCommitQueue()` and `draw()` exactly once each and
in that order, and invokes the graphics device's `update()` exactly once, at a
later position of the trace than `draw()`. -/
theorem step_viewport_calls_once_in_order (app : Application) (clock : FrameClock)
    (h : app.appCfg_.withScenegraph = true) (hv : app.screenViewport_.isSome = true) :
    ∃ events, app.step clock = some events
      ∧ events.filter Event.isViewportCall
          = [Event.viewportUpdate, Event.viewportVisit,
             Event.viewportSortAndCommitQueue, Event.viewportDraw]
      ∧ events.count Event.gfxDeviceUpdate = 1
      ∧ ∀ i j : Nat, events[i]? = some Event.viewportDraw →
          events[j]? = some Event.gfxDeviceUpdate → i < j := by
  obtain ⟨v, hsome⟩ := Option.isSome_iff_exists.mp hv
  have hs : app.step clock
      = some ([Event.frameTimerAddFrame, Event.onFrameStart, Event.viewportUpdate,
         Event.onPostUpdate, Event.viewportVisit, Event.viewportSortAndCommitQueue,
         Event.viewportDraw, Event.audioUpdatePlayers, Event.onFrameEnd,
         Event.gfxDeviceUpdate] ++ frameLimitWait app.appCfg_ clock) := by
    simp [Application.step, h, hsome]
  refine ⟨_, hs, ?_, ?_, ?_⟩
  · rw [List.filter_append, frameLimitWait_filter]
    rfl
  · rw [List.count_append, frameLimitWait_count]
    rfl
  · intro i j hi hj
    have hi6 : i = 6 := by
      by_contra hne
      rcases Nat.lt_or_ge i 10 with hlt | hge
      · rw [List.getElem?_append_left (by simpa using hlt)] at hi
        interval_cases i <;> simp_all
      · rw [List.getElem?_append_right (by simpa using hge)] at hi
        exact frameLimitWait_getElem _ _ _ hi
    subst hi6
    by_contra hle
    have hj6 : j < 10 := by omega
    rw [List.getElem?_append_left (by simpa using hj6)] at hj
    interval_cases j <;> simp_all

theorem step_viewport_calls_once_in_order_witness :
    (Application.mk ⟨true, 60⟩
        (some ⟨800, 600, (0, 0, 800, 600), 0, 800, 0, 600⟩)).appCfg_.withScenegraph = true
      ∧ (Application.mk ⟨true, 60⟩
          (some ⟨800, 600, (0, 0, 800, 600), 0, 800, 0, 600⟩)).screenViewport_.isSome = true
      ∧ ∃ events,
          (Application.mk ⟨true, 60⟩
            (some ⟨800, 600, (0, 0, 800, 600), 0, 800, 0, 600⟩)).step
              ⟨true, 10000000, 1000, 0⟩ = some events
          ∧ events.filter Event.isViewportCall
              = [Event.viewportUpdate, Event.viewportVisit,
                 Event.viewportSortAndCommitQueue, Event.viewportDraw]
          ∧ events.count Event.gfxDeviceUpdate = 1 :=
  ⟨rfl, rfl,
    (step_viewport_calls_once_in_order
      (Application.mk ⟨true, 60⟩ (some ⟨800, 600, (0, 0, 800, 600), 0, 800, 0, 600⟩))
      ⟨true, 10000000, 1000, 0⟩ rfl rfl).imp (fun _ ht => ⟨ht.1, ht.2.1, ht.2.2.1⟩)⟩

theorem pair_sublist_of_getElem? {α : Type} (l : List α) (i j : Nat) (x y : α)
    (hx : l[i]? = some x) (hy : l[j]? = some y) (hij : i < j) : List.Sublist [x, y] l := by
  induction l generalizing i j with
  | nil => simp at hx
  | cons h t ih =>
    cases j with
    | zero => omega
    | succ j =>
      rw [List.getElem?_cons_succ] at hy
      cases i with
      | zero =>
        rw [List.getElem?_cons_zero] at hx
        cases hx
        exact List.Sublist.cons₂ _ (List.singleton_sublist.mpr (List.getElem?_mem hy))
      | succ i =>
        rw [List.getElem?_cons_succ] at hx
        exact List.Sublist.cons _ (ih i j hx hy (by omega))

theorem foldl_addCommand (cmds : List RenderCommand) (q : RenderQueue) :
    (cmds.foldl RenderQueue.addCommand q).commands
      = q.commands ++ (cmds.enumFrom q.commands.length).map (fun p => ⟨p.1, p.2⟩) := by
  induction cmds generalizing q with
  | nil => simp
  | cons c rest ih =>
    rw [List.foldl_cons, ih]
    simp [RenderQueue.addCommand]

theorem ofCommands_commands (cmds : List RenderCommand) :
    (RenderQueue.ofCommands cmds).commands = cmds.enum.map (fun p => ⟨p.1, p.2⟩) := by
  unfold RenderQueue.ofCommands
  rw [foldl_addCommand]
  simp [RenderQueue.empty, List.enum]

theorem ofCommands_getElem? (cmds : List RenderCommand) (i : Nat) (a : RenderCommand)
    (ha : cmds[i]? = some a) : (RenderQueue.ofCommands cmds).commands[i]? = some ⟨i, a⟩ := by
  rw [ofCommands_commands, List.getElem?_map, List.getElem?_enum, ha]
  rfl

/-- C2: the render queue's sort is stable.  The sorted sequence is ordered by
the key and is a rearrangement of the queue, and any two queued commands with
equal layer and material class keep their relative insertion order: the command
inserted at position `i` stands before the one inserted at position `j > i`. -/
theorem sort_stable (cmds : List RenderCommand) (i j : Nat) (a b : RenderCommand)
    (ha : cmds[i]? = some a) (hb : cmds[j]? = some b) (hij : i < j)
    (hlayer : a.layer = b.layer) (hcls : a.cls = b.cls) :
    ((RenderQueue.ofCommands cmds).sort).Sorted QueuedCommand.keyLe
      ∧ ((RenderQueue.ofCommands cmds).sort).Perm (RenderQueue.ofCommands cmds).commands
      ∧ List.Sublist [(⟨i, a⟩ : QueuedCommand), ⟨j, b⟩] (RenderQueue.ofCommands cmds).sort := by
  refine ⟨List.sorted_insertionSort _ _, List.perm_insertionSort _ _, ?_⟩
  apply List.pair_sublist_insertionSort
  · simp only [QueuedCommand.keyLe, hlayer, hcls, lt_self_iff_false, true_and, false_or]
    exact Nat.le_of_lt hij
  · exact pair_sublist_of_getElem? _ i j _ _ (ofCommands_getElem? cmds i a ha)
      (ofCommands_getElem? cmds j b hb) hij

theorem sort_stable_witness :
    List.Sublist
      [(⟨0, ⟨5, ⟨1, 0, 1⟩, ⟨[], 7, (0, 0, 0, 0), (0, 0)⟩⟩⟩ : QueuedCommand),
        ⟨2, ⟨5, ⟨1, 0, 1⟩, ⟨[], 9, (0, 0, 0, 0), (0, 0)⟩⟩⟩]
      (RenderQueue.ofCommands
        [⟨5, ⟨1, 0, 1⟩, ⟨[], 7, (0, 0, 0, 0), (0, 0)⟩⟩,
         ⟨3, ⟨2, 0, 1⟩, ⟨[], 8, (0, 0, 0, 0), (0, 0)⟩⟩,
         ⟨5, ⟨1, 0, 1⟩, ⟨[], 9, (0, 0, 0, 0), (0, 0)⟩⟩]).sort :=
  (sort_stable
    [⟨5, ⟨1, 0, 1⟩, ⟨[], 7, (0, 0, 0, 0), (0, 0)⟩⟩,
     ⟨3, ⟨2, 0, 1⟩, ⟨[], 8, (0, 0, 0, 0), (0, 0)⟩⟩,
     ⟨5, ⟨1, 0, 1⟩, ⟨[], 9, (0, 0, 0, 0), (0, 0)⟩⟩] 0 2
    ⟨5, ⟨1, 0, 1⟩, ⟨[], 7, (0, 0, 0, 0), (0, 0)⟩⟩
    ⟨5, ⟨1, 0, 1⟩, ⟨[], 9, (0, 0, 0, 0), (0, 0)⟩⟩
    rfl rfl (by decide) rfl rfl).2.2

theorem commitWalk_contents (capacity : MaterialClass → Nat) (rest : List RenderCommand)
    (cur : Batch) :
    Batch.contents (commitWalk capacity cur rest)
      = cur.instances.map (fun x => (cur.cls, x))
        ++ rest.map (fun c => (c.cls, c.inst)) := by
  induction rest generalizing cur with
  | nil => simp [commitWalk, Batch.contents]
  | cons c rest ih =>
    unfold commitWalk
    split_ifs with hacc
    · rw [ih]
      simp only [Batch.accepts, Bool.and_eq_true, decide_eq_true_eq] at hacc
      simp [hacc.1]
    · have hcons : Batch.contents (cur :: commitWalk capacity (Batch.opened c) rest)
          = cur.instances.map (fun x => (cur.cls, x))
            ++ Batch.contents (commitWalk capacity (Batch.opened c) rest) := by
        simp [Batch.contents]
      rw [hcons, ih]
      simp [Batch.opened]

theorem commitWalk_sizes (capacity : MaterialClass → Nat) (rest : List RenderCommand)
    (cur : Batch) (hpos : 0 < cur.instances.length)
    (hcur : cur.instances.length ≤ capacity cur.cls)
    (hrest : ∀ c ∈ rest, 0 < capacity c.cls) :
    ∀ b ∈ commitWalk capacity cur rest,
      0 < b.instances.length ∧ b.instances.length ≤ capacity b.cls := by
  induction rest generalizing cur with
  | nil =>
    intro b hb
    simp only [commitWalk, List.mem_singleton] at hb
    subst hb
    exact ⟨hpos, hcur⟩
  | cons c rest ih =>
    have hrest2 : ∀ c2 ∈ rest, 0 < capacity c2.cls :=
      fun c2 h2 => hrest c2 (List.mem_cons_of_mem _ h2)
    unfold commitWalk
    split_ifs with hacc
    · simp only [Batch.accepts, Bool.and_eq_true, decide_eq_true_eq] at hacc
      apply ih
      · simp
      · simp only [List.length_append, List.length_singleton]
        omega
      · exact hrest2
    · intro b hb
      rcases List.mem_cons.mp hb with h | h
      · subst h
        exact ⟨hpos, hcur⟩
      · refine ih (Batch.opened c) ?_ ?_ hrest2 b h
        · simp [Batch.opened]
        · have := hrest c (List.mem_cons_self _ _)
          simpa [Batch.opened] using this

theorem commitWalk_head (capacity : MaterialClass → Nat) (rest : List RenderCommand)
    (cur : Batch) :
    ∃ b t, commitWalk capacity cur rest = b :: t ∧ b.cls = cur.cls := by
  induction rest generalizing cur with
  | nil => exact ⟨cur, [], rfl, rfl⟩
  | cons c rest ih =>
    unfold commitWalk
    split_ifs with hacc
    · obtain ⟨b, t, h1, h2⟩ := ih { cur with instances := cur.instances ++ [c.inst] }
      exact ⟨b, t, h1, h2⟩
    · exact ⟨cur, _, rfl, rfl⟩

theorem commitWalk_chain (capacity : MaterialClass → Nat) (rest : List RenderCommand)
    (cur : Batch) (hcur : cur.instances.length ≤ capacity cur.cls)
    (hrest : ∀ c ∈ rest, 0 < capacity c.cls) :
    (commitWalk capacity cur rest).Chain' (Batch.closedBefore capacity) := by
  induction rest generalizing cur with
  | nil => simp [commitWalk]
  | cons c rest ih =>
    have hrest2 : ∀ c2 ∈ rest, 0 < capacity c2.cls :=
      fun c2 h2 => hrest c2 (List.mem_cons_of_mem _ h2)
    unfold commitWalk
    split_ifs with hacc
    · simp only [Batch.accepts, Bool.and_eq_true, decide_eq_true_eq] at hacc
      apply ih
      · simp only [List.length_append, List.length_singleton]
        omega
      · exact hrest2
    · have hc1 : (Batch.opened c).instances.length ≤ capacity (Batch.opened c).cls := by
        have := hrest c (List.mem_cons_self _ _)
        simpa [Batch.opened] using this
      have hch := ih (Batch.opened c) hc1 hrest2
      obtain ⟨b, t, hbt, hb1⟩ := commitWalk_head capacity rest (Batch.opened c)
      rw [hbt] at hch ⊢
      rw [List.chain'_cons]
      refine ⟨?_, hch⟩
      simp only [Batch.accepts, Bool.and_eq_true, decide_eq_true_eq, not_and] at hacc
      unfold Batch.closedBefore
      rw [hb1]
      simp only [Batch.opened]
      by_cases h1 : c.cls = cur.cls
      · exact Or.inr (by have := hacc h1; omega)
      · exact Or.inl (fun h => h1 h.symm)

theorem commitWalk_length_uniform (capacity : MaterialClass → Nat) (rest : List RenderCommand)
    (cur : Batch) (hpos : 0 < cur.instances.length)
    (hcur : cur.instances.length ≤ capacity cur.cls)
    (hrest : ∀ c ∈ rest, c.cls = cur.cls) :
    (commitWalk capacity cur rest).length
      = (cur.instances.length + rest.length + capacity cur.cls - 1) / capacity cur.cls := by
  induction rest generalizing cur with
  | nil =>
    simp only [commitWalk, List.length_singleton, List.length_nil, Nat.add_zero]
    symm
    apply Nat.div_eq_of_lt_le <;> omega
  | cons c rest ih =>
    have hrest2 : ∀ c2 ∈ rest, c2.cls = cur.cls :=
      fun c2 h2 => hrest c2 (List.mem_cons_of_mem _ h2)
    have hc1 := hrest c (List.mem_cons_self _ _)
    unfold commitWalk
    split_ifs with hacc
    · simp only [Batch.accepts, Bool.and_eq_true, decide_eq_true_eq] at hacc
      rw [ih { cur with instances := cur.instances ++ [c.inst] } (by simp)
        (by simp only [List.length_append, List.length_singleton]; omega) hrest2]
      simp only [List.length_append, List.length_singleton, List.length_cons, List.length_nil]
      congr 1
      omega
    · simp only [Batch.accepts, Bool.and_eq_true, decide_eq_true_eq, not_and] at hacc
      have hfull : cur.instances.length = capacity cur.cls := by
        have := hacc hc1
        omega
      have hC : 0 < capacity cur.cls := by omega
      have hopen : (Batch.opened c).cls = cur.cls := hc1
      rw [List.length_cons, ih (Batch.opened c) (by simp [Batch.opened])
        (by rw [hopen]; simpa [Batch.opened] using hC)
        (fun c2 h2 => (hrest2 c2 h2).trans hc1.symm)]
      rw [hopen, hfull]
      simp only [Batch.opened, List.length_singleton, List.length_cons, List.length_nil,
        Nat.zero_add]
      have e1 : capacity cur.cls + (rest.length + 1) + capacity cur.cls - 1
          = (1 + rest.length + capacity cur.cls - 1) + capacity cur.cls := by omega
      rw [e1, Nat.add_div_right _ hC]

/-- C3: with a positive instance capacity for every class in the queue, commit
returns a batch sequence that splits the command sequence, in order, into
batches that each hold consecutive commands of one material class and at least
one and at most capacity-many instances; a batch is closed before the next only
on a class change or when its capacity is reached.  Hence N commands of one
class with capacity C yield exactly ceil(N / C) batches, and the batches'
instance data concatenated reproduce the per-command data in order.  Six class-A
commands with capacity 4 followed by four class-B commands give batches of sizes
4, 2, 4. -/
theorem commit_batches (blockByteBudget : Nat) (stride : Nat → Nat)
    (cmds : List RenderCommand)
    (hcap : ∀ c ∈ cmds, 0 < RenderQueue.capacity blockByteBudget stride c.cls) :
    (∃ batches, RenderQueue.commit blockByteBudget stride cmds = some batches
        ∧ Batch.contents batches = cmds.map (fun c => (c.cls, c.inst))
        ∧ (∀ b ∈ batches, 0 < b.instances.length
            ∧ b.instances.length ≤ RenderQueue.capacity blockByteBudget stride b.cls)
        ∧ batches.Chain' (Batch.closedBefore (RenderQueue.capacity blockByteBudget stride))
        ∧ (∀ k, (∀ c ∈ cmds, c.cls = k) →
            batches.length
              = (cmds.length + RenderQueue.capacity blockByteBudget stride k - 1)
                  / RenderQueue.capacity blockByteBudget stride k))
    ∧ (RenderQueue.sortAndCommit 64 (fun _ => 16) (RenderQueue.ofCommands scenarioCommands)).map
          (List.map (fun b => (b.cls.shader, b.instances.map InstanceData.color)))
        = some [(1, [0, 1, 2, 3]), (1, [4, 5]), (2, [6, 7, 8, 9])] := by
  refine ⟨?_, by decide⟩
  have hall : cmds.all (fun c => decide (0 < RenderQueue.capacity blockByteBudget stride c.cls))
      = true := by
    rw [List.all_eq_true]
    intro c hc
    simpa using hcap c hc
  unfold RenderQueue.commit
  rw [if_pos hall]
  cases cmds with
  | nil =>
    refine ⟨[], rfl, by simp [Batch.contents], by simp, by simp, ?_⟩
    intro k _
    simp only [List.length_nil, Nat.zero_add]
    symm
    rcases Nat.eq_zero_or_pos (RenderQueue.capacity blockByteBudget stride k) with h0 | hpos
    · rw [h0]
    · exact Nat.div_eq_of_lt (by omega)
  | cons c rest =>
    have hrest : ∀ c2 ∈ rest, 0 < RenderQueue.capacity blockByteBudget stride c2.cls :=
      fun c2 h2 => hcap c2 (List.mem_cons_of_mem _ h2)
    have hc : (Batch.opened c).instances.length
        ≤ RenderQueue.capacity blockByteBudget stride (Batch.opened c).cls := by
      have := hcap c (List.mem_cons_self _ _)
      simpa [Batch.opened] using this
    refine ⟨_, rfl, ?_, ?_, ?_, ?_⟩
    · rw [commitWalk_contents]
      simp [Batch.opened]
    · exact commitWalk_sizes _ rest _ (by simp [Batch.opened]) hc hrest
    · exact commitWalk_chain _ rest _ hc hrest
    · intro k huni
      have hc1 := huni c (List.mem_cons_self _ _)
      have hopen : (Batch.opened c).cls = k := hc1
      rw [commitWalk_length_uniform _ rest (Batch.opened c) (by simp [Batch.opened]) hc
        (fun c2 h2 => (huni c2 (List.mem_cons_of_mem _ h2)).trans hc1.symm)]
      rw [hopen]
      simp only [Batch.opened, List.length_singleton, List.length_cons, List.length_nil,
        Nat.zero_add]
      congr 1
      omega

theorem commit_batches_witness :
    (∀ c ∈ scenarioCommands, 0 < RenderQueue.capacity 64 (fun _ => 16) c.cls)
      ∧ ∃ batches, RenderQueue.commit 64 (fun _ => 16) scenarioCommands = some batches
          ∧ batches.map (fun b => b.instances.length) = [4, 2, 4]
          ∧ Batch.contents batches = scenarioCommands.map (fun c => (c.cls, c.inst)) :=
  ⟨by decide,
    (commit_batches 64 (fun _ => 16) scenarioCommands (by decide)).1.imp
      (fun batches hb => ⟨hb.1, by
        have h := hb.1
        have hval : RenderQueue.commit 64 (fun _ => 16) scenarioCommands
            = some [⟨⟨1, 0, 1⟩, (List.range 4).map
                      (fun i => ⟨[], i, (0, 0, 0, 0), (0, 0)⟩)⟩,
                    ⟨⟨1, 0, 1⟩, (List.range 2).map
                      (fun i => ⟨[], 4 + i, (0, 0, 0, 0), (0, 0)⟩)⟩,
                    ⟨⟨2, 0, 2⟩, (List.range 4).map
                      (fun i => ⟨[], 6 + i, (0, 0, 0, 0), (0, 0)⟩)⟩] := by decide
        rw [hval] at h
        cases h
        decide, hb.2.1⟩)⟩

/-! ### Transform tree: parent chains -/

theorem getElem?_mapNodes (f : Nat → SceneNode → SceneNode) (l : List SceneNode) (s i : Nat) :
    (mapNodes f s l)[i]? = l[i]?.map (f (s + i)) := by
  induction l generalizing s i with
  | nil => simp [mapNodes]
  | cons nd rest ih =>
    cases i with
    | zero => simp [mapNodes]
    | succ i =>
      simp only [mapNodes, List.getElem?_cons_succ]
      rw [ih]
      have e : s + 1 + i = s + (i + 1) := by omega
      rw [e]

theorem ancestor_add (g : SceneGraph) (a b x : Nat) :
    g.ancestor (a + b) x = (g.ancestor a x).bind (g.ancestor b) := by
  induction a generalizing x with
  | zero => simp [SceneGraph.ancestor]
  | succ a ih =>
    rw [Nat.succ_add]
    simp only [SceneGraph.ancestor]
    cases g.parentOf x with
    | none => rfl
    | some p => exact ih p

theorem ancestor_none_of_le (g : SceneGraph) (a b x : Nat) (h : g.ancestor a x = none)
    (hab : a ≤ b) : g.ancestor b x = none := by
  have e : b = a + (b - a) := by omega
  rw [e, ancestor_add, h]
  rfl

theorem acyclic_of_bounded (g : SceneGraph) (hb : ∀ x, g.ancestor g.size x = none) :
    g.Acyclic := by
  intro n k hk hcyc
  have hrep : ∀ m, g.ancestor (m * k) n = some n := by
    intro m
    induction m with
    | zero => simp [SceneGraph.ancestor]
    | succ m ih =>
      rw [Nat.succ_mul, ancestor_add, ih]
      exact hcyc
  have hle : g.size ≤ g.size * k := Nat.le_mul_of_pos_right _ hk
  have := ancestor_none_of_le g g.size (g.size * k) n (hb n) hle
  rw [hrep] at this
  cases this

theorem sampleGraph_bounded (x : Nat) : sampleGraph.ancestor sampleGraph.size x = none := by
  match x with
  | 0 => rfl
  | 1 => rfl
  | 2 => rfl
  | n + 3 => simp [SceneGraph.ancestor, SceneGraph.parentOf, sampleGraph, SceneGraph.size]

/-! ### Transform tree: attach and detach -/

theorem walkUp_root_sound (g : SceneGraph) (fuel p c : Nat)
    (h : g.walkUp fuel p c = Walk.root) : ∀ k, g.ancestor k p ≠ some c := by
  induction fuel generalizing p with
  | zero =>
    unfold SceneGraph.walkUp at h
    split_ifs at h
  | succ fuel ih =>
    unfold SceneGraph.walkUp at h
    split_ifs at h with hpc
    intro k
    cases k with
    | zero =>
      simp only [SceneGraph.ancestor, ne_eq, Option.some.injEq]
      exact hpc
    | succ k =>
      simp only [SceneGraph.ancestor]
      cases hq : g.parentOf p with
      | none => simp
      | some q =>
        rw [hq] at h
        exact ih q h k

theorem ancestor_of_changed (g g2 : SceneGraph) (c : Nat)
    (hsame : ∀ x, x ≠ c → g2.parentOf x = g.parentOf x) (k a b : Nat)
    (h : g2.ancestor k a = some b) :
    g.ancestor k a = some b ∨ ∃ i, i < k ∧ g2.ancestor i a = some c := by
  induction k generalizing a with
  | zero => exact Or.inl h
  | succ k ih =>
    by_cases hac : a = c
    · exact Or.inr ⟨0, Nat.succ_pos k, by rw [hac]; rfl⟩
    · simp only [SceneGraph.ancestor] at h ⊢
      rw [hsame a hac] at h
      cases hq : g.parentOf a with
      | none => rw [hq] at h; simp at h
      | some q =>
        rw [hq] at h
        rcases ih q h with h1 | ⟨i, hi, h2⟩
        · exact Or.inl h1
        · refine Or.inr ⟨i + 1, Nat.succ_lt_succ hi, ?_⟩
          simp only [SceneGraph.ancestor]
          rw [hsame a hac, hq]
          exact h2

theorem reaches_of_changed (g g2 : SceneGraph) (c : Nat)
    (hsame : ∀ x, x ≠ c → g2.parentOf x = g.parentOf x) (k p : Nat)
    (h : g2.ancestor k p = some c) : ∃ j, g.ancestor j p = some c := by
  induction k using Nat.strong_induction_on with
  | _ k ih =>
    rcases ancestor_of_changed g g2 c hsame k p c h with h1 | ⟨i, hi, h2⟩
    · exact ⟨k, h1⟩
    · exact ih i hi h2

theorem acyclic_of_reparent (g g2 : SceneGraph) (c p : Nat)
    (hsame : ∀ x, x ≠ c → g2.parentOf x = g.parentOf x)
    (hc : g2.parentOf c = some p) (hfree : ∀ k, g.ancestor k p ≠ some c)
    (hg : g.Acyclic) : g2.Acyclic := by
  intro n k hk hcyc
  rcases ancestor_of_changed g g2 c hsame k n n hcyc with h1 | ⟨i, hi, h2⟩
  · exact hg n k hk h1
  · have hsplit : g2.ancestor (i + (k - i)) n = some n := by
      rw [Nat.add_sub_cancel' (Nat.le_of_lt hi)]
      exact hcyc
    rw [ancestor_add, h2] at hsplit
    have hcc : g2.ancestor ((k - i) + i) c = some c := by
      rw [ancestor_add]
      have hb : g2.ancestor (k - i) c = some n := hsplit
      rw [hb]
      exact h2
    have hki : (k - i) + i = (k - 1) + 1 := by omega
    rw [hki] at hcc
    simp only [SceneGraph.ancestor] at hcc
    rw [hc] at hcc
    obtain ⟨j, hj⟩ := reaches_of_changed g g2 c hsame (k - 1) p hcc
    exact hfree j hj

theorem acyclic_of_unparent (g g2 : SceneGraph)
    (hsub : ∀ x q, g2.parentOf x = some q → g.parentOf x = some q)
    (hg : g.Acyclic) : g2.Acyclic := by
  have hanc : ∀ k a b, g2.ancestor k a = some b → g.ancestor k a = some b := by
    intro k
    induction k with
    | zero => intro a b h; exact h
    | succ k ih =>
      intro a b h
      simp only [SceneGraph.ancestor] at h ⊢
      cases hq : g2.parentOf a with
      | none => rw [hq] at h; simp at h
      | some q =>
        rw [hq] at h
        rw [hsub a q hq]
        exact ih q b h
  intro n k hk hcyc
  exact hg n k hk (hanc k n n hcyc)

theorem parentOf_mapNodes (g : SceneGraph) (f : Nat → SceneNode → SceneNode) (x : Nat) :
    (SceneGraph.mk (mapNodes f 0 g.nodes)).parentOf x
      = g.nodes[x]?.bind (fun nd => (f x nd).parent_) := by
  unfold SceneGraph.parentOf
  simp only [getElem?_mapNodes, Nat.zero_add]
  cases g.nodes[x]? <;> rfl

theorem detachNode_parent (g : SceneGraph) (child i : Nat) (nd : SceneNode) :
    (g.detachNode child i nd).parent_ = if i = child then none else nd.parent_ := by
  unfold SceneGraph.detachNode
  dsimp only
  split_ifs <;> rfl

theorem attachNode_parent (g : SceneGraph) (child newParent i : Nat) (nd : SceneNode) :
    (g.attachNode child newParent i nd).parent_
      = if i = child then some newParent else nd.parent_ := by
  unfold SceneGraph.attachNode
  dsimp only
  split_ifs <;> rfl

theorem parentOf_detach (g : SceneGraph) (child x : Nat) :
    (g.detach child).parentOf x = if x = child then none else g.parentOf x := by
  unfold SceneGraph.detach
  rw [parentOf_mapNodes]
  unfold SceneGraph.parentOf
  cases hx : g.nodes[x]? with
  | none => simp
  | some nd => simp only [Option.some_bind, detachNode_parent]

theorem parentOf_attach (g : SceneGraph) (child newParent x : Nat)
    (h : (g.attach child newParent).1 = true) :
    (g.attach child newParent).2.parentOf x
      = if x = child then some newParent else g.parentOf x := by
  have hlt : child < g.nodes.length := by
    unfold SceneGraph.attach at h
    split_ifs at h with hok
    exact hok.1
  have hval : (g.attach child newParent).2
      = ⟨mapNodes (g.attachNode child newParent) 0 g.nodes⟩ := by
    unfold SceneGraph.attach at h ⊢
    split_ifs at h ⊢ with hok
    rfl
  rw [hval, parentOf_mapNodes]
  unfold SceneGraph.parentOf
  cases hx : g.nodes[x]? with
  | none =>
    have hxc : x ≠ child := by
      intro hxc
      rw [hxc, List.getElem?_eq_getElem hlt] at hx
      cases hx
    simp [hxc]
  | some nd => simp only [Option.some_bind, attachNode_parent]

theorem attach_acyclic (g : SceneGraph) (child newParent : Nat) (hg : g.Acyclic) :
    (g.attach child newParent).2.Acyclic := by
  by_cases h : (g.attach child newParent).1 = true
  · have hpar := fun x => parentOf_attach g child newParent x h
    have hroot : g.walkUp g.size newParent child = Walk.root := by
      unfold SceneGraph.attach at h
      split_ifs at h with hok
      exact hok.2.2
    apply acyclic_of_reparent g _ child newParent _ _ (walkUp_root_sound g _ _ _ hroot) hg
    · intro x hx
      rw [hpar, if_neg hx]
    · rw [hpar, if_pos rfl]
  · have : (g.attach child newParent).2 = g := by
      unfold SceneGraph.attach at h ⊢
      split_ifs at h ⊢ with hok
      · simp at h
      · rfl
    rw [this]
    exact hg

theorem detach_acyclic (g : SceneGraph) (child : Nat) (hg : g.Acyclic) :
    (g.detach child).Acyclic := by
  apply acyclic_of_unparent g _ _ hg
  intro x q hq
  rw [parentOf_detach] at hq
  split_ifs at hq
  exact hq

/-- C5: attaching a node to itself or to any node of its own subtree (a node
that has it as an ancestor) is rejected, the attach reporting failure and
returning the arena unchanged; and an acyclic parent relation stays acyclic
after every sequence of attach and detach calls. -/
theorem attach_rejects_cycle (g : SceneGraph) (child newParent : Nat) (cs : List TreeCall) :
    ((∃ k, g.ancestor k newParent = some child) → g.attach child newParent = (false, g))
      ∧ (g.Acyclic → (g.calls cs).Acyclic) := by
  constructor
  · intro hsub
    unfold SceneGraph.attach
    split_ifs with hok
    · obtain ⟨k, hk⟩ := hsub
      exact absurd hk (walkUp_root_sound g _ _ _ hok.2.2 k)
    · rfl
  · intro hg
    unfold SceneGraph.calls
    induction cs generalizing g with
    | nil => exact hg
    | cons op cs ih =>
      rw [List.foldl_cons]
      apply ih
      cases op with
      | attach c p => exact attach_acyclic g c p hg
      | detach c => exact detach_acyclic g c hg

theorem attach_rejects_cycle_witness :
    sampleGraph.attach 0 1 = (false, sampleGraph)
      ∧ (sampleGraph.attach 1 2).1 = true
      ∧ (sampleGraph.calls [TreeCall.attach 1 2, TreeCall.attach 2 1, TreeCall.detach 1]).Acyclic :=
  ⟨(attach_rejects_cycle sampleGraph 0 1 []).1 ⟨1, rfl⟩, by decide,
    (attach_rejects_cycle sampleGraph 0 1
      [TreeCall.attach 1 2, TreeCall.attach 2 1, TreeCall.detach 1]).2
      (acyclic_of_bounded sampleGraph sampleGraph_bounded)⟩

/-! ### Transform tree: mutations and the dirty flag -/

theorem size_of_touches (g g2 : SceneGraph) (c : Nat) (ht : g.Touches c g2) :
    g2.size = g.size := ht.len

/-- C9, the claim as stated fails: `resizeScreenViewport(0, 600)` on an 800x600
screen viewport does call the viewport's `resize(0, 600)`, which leaves the
viewport 0 wide; only the handler notification is withheld. -/
theorem resizeScreenViewport_nonpositive_still_resizes :
    Event.viewportResize 0 600
        ∈ ((Application.mk ⟨true, 0⟩
            (some ⟨800, 600, (0, 0, 800, 600), 0, 800, 0, 600⟩)).resizeScreenViewport 0 600).2
      ∧ (((Application.mk ⟨true, 0⟩
            (some ⟨800, 600, (0, 0, 800, 600), 0, 800, 0, 600⟩)).resizeScreenViewport
              0 600).1.screenViewport_.map ScreenViewport.size) = some (0, 600) := by
  decide

/-- C9 (as amended): for a non-positive width or height,
`Application::resizeScreenViewport` never notifies the application handler; when
a screen viewport exists its only call is the viewport's `resize(width, height)`,
and without a viewport it makes no call. -/
theorem resizeScreenViewport_nonpositive (app : Application) (width height : Int)
    (h : width ≤ 0 ∨ height ≤ 0) :
    (∀ w2 h2, Event.onResizeWindow w2 h2 ∉ (app.resizeScreenViewport width height).2)
      ∧ (app.resizeScreenViewport width height).2
          = if app.screenViewport_.isSome then [Event.viewportResize width height] else [] := by
  have hguard : ∀ b : Bool, (b && decide (width > 0) && decide (height > 0)) = false := by
    intro b
    rcases h with h | h
    · have : decide (width > 0) = false := by simpa using h
      simp [this]
    · have : decide (height > 0) = false := by simpa using h
      simp [this]
  unfold Application.resizeScreenViewport
  cases hv : app.screenViewport_ with
  | none => simp
  | some v => simp [hguard]

theorem resizeScreenViewport_nonpositive_witness :
    ((Application.mk ⟨true, 0⟩
        (some ⟨800, 600, (0, 0, 800, 600), 0, 800, 0, 600⟩)).resizeScreenViewport 0 600).2
      = [Event.viewportResize 0 600] :=
  (resizeScreenViewport_nonpositive
    (Application.mk ⟨true, 0⟩ (some ⟨800, 600, (0, 0, 800, 600), 0, 800, 0, 600⟩)) 0 600
    (Or.inl (le_refl 0))).2

/-! ### Application: frame limit wait and resize notification -/

/-- C12, the code at the failing input (Windows branch): with a frame limit of 60
and a clock of 10 MHz the target frame duration is 166666 ticks; after a frame
that already took 200000 ticks the unsigned subtraction wraps to
2^64 - 33334, which is positive, so the waitable timer is set and waited on.
When the elapsed ticks equal the target duration, and when the frame limit is
not positive, no wait is requested. -/
theorem frameLimitWait_waits_after_slow_frame :
    frameTimeDuration 60 ⟨true, 10000000, 200000, 0⟩ = 166666
      ∧ remainingTime 60 ⟨true, 10000000, 200000, 0⟩ = 2 ^ 64 - 33334
      ∧ frameLimitWait ⟨true, 60⟩ ⟨true, 10000000, 200000, 0⟩
          = [Event.setWaitableTimer (-1844674374036), Event.waitForSingleObject 1000,
             Event.cancelWaitableTimer]
      ∧ frameLimitWait ⟨true, 60⟩ ⟨true, 10000000, 166666, 0⟩ = []
      ∧ frameLimitWait ⟨true, 0⟩ ⟨true, 10000000, 200000, 0⟩ = [] := by
  decide

/-- C13: `Application::resizeScreenViewport(width, height)` calls the handler's
`OnResizeWindow(width, height)` if and only if a screen viewport exists, the
size differs from the viewport's size before the call, and width and height are
both positive; it calls it at most once and with no other arguments. -/
theorem resizeScreenViewport_notifies_iff (app : Application) (width height : Int) :
    (Event.onResizeWindow width height ∈ (app.resizeScreenViewport width height).2
        ↔ ∃ v, app.screenViewport_ = some v ∧ (width ≠ v.width_ ∨ height ≠ v.height_)
            ∧ 0 < width ∧ 0 < height)
      ∧ (∀ w2 h2, Event.onResizeWindow w2 h2 ∈ (app.resizeScreenViewport width height).2
          → w2 = width ∧ h2 = height)
      ∧ (app.resizeScreenViewport width height).2.count (Event.onResizeWindow width height)
          ≤ 1 := by
  unfold Application.resizeScreenViewport
  cases hv : app.screenViewport_ with
  | none => simp
  | some v =>
    simp only [Option.some.injEq, exists_eq_left']
    by_cases hc : ((width != v.width_ || height != v.height_) && decide (width > 0)
        && decide (height > 0)) = true
    · rw [if_pos hc]
      simp only [Bool.and_eq_true, Bool.or_eq_true, bne_iff_ne, ne_eq, decide_eq_true_eq] at hc
      refine ⟨?_, ?_, ?_⟩
      · simp only [List.mem_cons, List.mem_singleton, List.not_mem_nil, or_false, or_true,
          true_iff]
        exact ⟨hc.1.1, hc.1.2, hc.2⟩
      · intro w2 h2 hmem
        simp only [List.mem_cons, List.mem_singleton, List.not_mem_nil, or_false,
          Event.onResizeWindow.injEq] at hmem
        rcases hmem with hbad | hgood
        · cases hbad
        · exact hgood
      · simp [List.count_cons]
    · rw [if_neg hc]
      simp only [Bool.and_eq_true, Bool.or_eq_true, bne_iff_ne, ne_eq, decide_eq_true_eq] at hc
      refine ⟨?_, ?_, ?_⟩
      · simp only [List.mem_singleton]
        constructor
        · intro hbad
          cases hbad
        · rintro ⟨h1, h2, h3⟩
          exact absurd ⟨⟨h1, h2⟩, h3⟩ hc
      · intro w2 h2 hmem
        simp at hmem
      · simp [List.count_cons]

/-! ### Iterator operations -/

theorem iterate_succ_pos (k : Nat) (it : Int) : (fun p : Int => p + 1)^[k] it = it + k := by
  induction k generalizing it with
  | zero => simp
  | succ k ih =>
    rw [Function.iterate_succ_apply, ih]
    push_cast
    ring

theorem iterate_pred_pos (k : Nat) (it : Int) : (fun p : Int => p - 1)^[k] it = it - k := by
  induction k generalizing it with
  | zero => simp
  | succ k ih =>
    rw [Function.iterate_succ_apply, ih]
    push_cast
    ring

theorem advance_eq (tag : IteratorTag) (it n : Int) (h : tag ≠ IteratorTag.Forward) :
    advance tag it n = it + n := by
  cases tag with
  | Forward => exact absurd rfl h
  | RandomAccess => rfl
  | Bidirectional =>
    unfold advance
    simp only
    split_ifs with hn
    · rw [iterate_pred_pos, Int.toNat_of_nonneg (by omega)]
      ring
    · rw [iterate_succ_pos, Int.toNat_of_nonneg (by omega)]

theorem next_prev_small (tag : IteratorTag) (it : Int) (n : Nat)
    (h : tag ≠ IteratorTag.Forward) (hn : n < 2 ^ 31) :
    next tag it n = it + n ∧ prev tag it n = it - n ∧ prev tag (next tag it n) n = it := by
  have h1 : toInt32 n = n := by
    unfold toInt32
    have : n % 2 ^ 32 = n := Nat.mod_eq_of_lt (by omega)
    rw [this, if_pos hn]
  have h2 : toInt32 (negUInt32 n) = -(n : Int) := by
    unfold toInt32 negUInt32
    have e : n % 2 ^ 32 = n := Nat.mod_eq_of_lt (by omega)
    rw [e]
    rcases Nat.eq_zero_or_pos n with h0 | hpos
    · subst h0
      simp
    · have e2 : (2 ^ 32 - n) % 2 ^ 32 = 2 ^ 32 - n := Nat.mod_eq_of_lt (by omega)
      rw [Nat.mod_mod, e2, if_neg (by omega)]
      omega
  unfold next prev
  rw [advance_eq tag _ _ h, advance_eq tag _ _ h, advance_eq tag _ _ h, h1, h2]
  refine ⟨rfl, by ring, by ring⟩

theorem next_prev_mod (tag : IteratorTag) (it : Int) (n : Nat)
    (h : tag ≠ IteratorTag.Forward) (hn : n < 2 ^ 32) :
    (next tag it n - (it + n)) % 2 ^ 32 = 0 ∧ (prev tag it n - (it - n)) % 2 ^ 32 = 0
      ∧ (prev tag (next tag it n) n - it) % 2 ^ 32 = 0 := by
  have e : n % 2 ^ 32 = n := Nat.mod_eq_of_lt hn
  have h1 : toInt32 n = n ∨ toInt32 n = (n : Int) - 2 ^ 32 := by
    unfold toInt32
    rw [e]
    split_ifs
    · exact Or.inl rfl
    · exact Or.inr rfl
  have h2 : toInt32 (negUInt32 n) = -(n : Int) ∨ toInt32 (negUInt32 n) = -(n : Int) + 2 ^ 32 := by
    unfold toInt32 negUInt32
    rw [e, Nat.mod_mod]
    rcases Nat.eq_zero_or_pos n with h0 | hpos
    · subst h0
      exact Or.inl (by decide)
    · have e2 : (2 ^ 32 - n) % 2 ^ 32 = 2 ^ 32 - n := Nat.mod_eq_of_lt (by omega)
      rw [e2]
      split_ifs
      · exact Or.inr (by omega)
      · exact Or.inl (by omega)
  unfold next prev
  rw [advance_eq tag _ _ h, advance_eq tag _ _ h, advance_eq tag _ _ h]
  rcases h1 with h1 | h1 <;> rcases h2 with h2 | h2 <;> rw [h1, h2] <;>
    refine ⟨?_, ?_, ?_⟩ <;> omega

/-- C19, the code at the failing input: for `n = 2^31` the conversion of the
`unsigned int` to `int` yields `-2^31`, so `next(it, n)` stands `2^31` positions
before `it`, not after it, and `prev(next(it, n), n)` stands `2^32` positions
before `it`; this for random-access and for bidirectional iterators. -/
theorem next_moves_backwards_at_two_pow_31 :
    next IteratorTag.RandomAccess 0 (2 ^ 31) = -(2 ^ 31)
      ∧ prev IteratorTag.RandomAccess (next IteratorTag.RandomAccess 0 (2 ^ 31)) (2 ^ 31)
          = -(2 ^ 32)
      ∧ next IteratorTag.Bidirectional 0 (2 ^ 31) = -(2 ^ 31)
      ∧ prev IteratorTag.Bidirectional (next IteratorTag.Bidirectional 0 (2 ^ 31)) (2 ^ 31)
          = -(2 ^ 32) := by
  have h1 : toInt32 (2 ^ 31) = -(2 ^ 31) := by decide
  have h2 : toInt32 (negUInt32 (2 ^ 31)) = -(2 ^ 31) := by decide
  unfold next prev
  rw [advance_eq _ _ _ (by decide), advance_eq _ _ _ (by decide),
    advance_eq _ _ _ (by decide), advance_eq _ _ _ (by decide), h1, h2]
  refine ⟨by norm_num, by norm_num, by norm_num, by norm_num⟩

/-! ### GLHashMap -/

theorem read_write_other (f : Nat → Nat) (m : GLHashMap) (k1 k2 v : Nat) (h : f k1 ≠ f k2) :
    GLHashMap.read f (GLHashMap.write f m k1 v) k2 = GLHashMap.read f m k2 := by
  simp only [GLHashMap.read, GLHashMap.write, List.getD_eq_getElem?_getD]
  rw [List.getElem?_set_ne h]

theorem read_new (f : Nat → Nat) (S key : Nat) : GLHashMap.read f (GLHashMap.new S) key = 0 := by
  simp only [GLHashMap.read, GLHashMap.new, List.getD_eq_getElem?_getD]
  cases h : (List.replicate S 0)[f key]? with
  | none => rfl
  | some v =>
    have := List.getElem?_mem h
    rw [List.mem_replicate] at this
    simp [this.2]

theorem bufferTargets_injective :
    ∀ k1 ∈ bufferTargets, ∀ k2 ∈ bufferTargets, k1 ≠ k2 →
      GLBufferObjectMappingFunc k1 ≠ GLBufferObjectMappingFunc k2 := by
  decide

theorem textureTargets_injective :
    ∀ k1 ∈ textureTargets, ∀ k2 ∈ textureTargets, k1 ≠ k2 →
      GLTextureMappingFunc k1 ≠ GLTextureMappingFunc k2 := by
  decide

/-- C22: `GLBufferObjectMappingFunc` maps the six supported buffer targets to
pairwise distinct indices below its `Size` (6) and `GLTextureMappingFunc` maps
the four supported texture targets to pairwise distinct indices below its `Size`
(4).  Hence in a `GLHashMap` a write through `operator[]` for one supported
target leaves the value read for a different supported target unchanged, and a
freshly constructed map reads 0 for every target. -/
theorem mapping_distinct_and_map_isolated (m : GLHashMap) (k1 k2 v : Nat) :
    bufferTargets.map GLBufferObjectMappingFunc = [0, 1, 2, 3, 4, 5]
      ∧ (∀ k ∈ bufferTargets, GLBufferObjectMappingFunc k < GLBufferObjectMappingFunc.Size)
      ∧ textureTargets.map GLTextureMappingFunc = [0, 1, 2, 3]
      ∧ (∀ k ∈ textureTargets, GLTextureMappingFunc k < GLTextureMappingFunc.Size)
      ∧ (k1 ∈ bufferTargets → k2 ∈ bufferTargets → k1 ≠ k2 →
          GLHashMap.read GLBufferObjectMappingFunc
              (GLHashMap.write GLBufferObjectMappingFunc m k1 v) k2
            = GLHashMap.read GLBufferObjectMappingFunc m k2)
      ∧ (k1 ∈ textureTargets → k2 ∈ textureTargets → k1 ≠ k2 →
          GLHashMap.read GLTextureMappingFunc
              (GLHashMap.write GLTextureMappingFunc m k1 v) k2
            = GLHashMap.read GLTextureMappingFunc m k2)
      ∧ GLHashMap.read GLBufferObjectMappingFunc
            (GLHashMap.new GLBufferObjectMappingFunc.Size) k1 = 0
      ∧ GLHashMap.read GLTextureMappingFunc
            (GLHashMap.new GLTextureMappingFunc.Size) k1 = 0 := by
  refine ⟨by decide, by decide, by decide, by decide, ?_, ?_, read_new _ _ _, read_new _ _ _⟩
  · intro h1 h2 hne
    exact read_write_other _ m k1 k2 v (bufferTargets_injective k1 h1 k2 h2 hne)
  · intro h1 h2 hne
    exact read_write_other _ m k1 k2 v (textureTargets_injective k1 h1 k2 h2 hne)

theorem mapping_distinct_and_map_isolated_witness :
    GLHashMap.read GLBufferObjectMappingFunc
        (GLHashMap.write GLBufferObjectMappingFunc
          (GLHashMap.write GLBufferObjectMappingFunc
            (GLHashMap.new GLBufferObjectMappingFunc.Size) GL_UNIFORM_BUFFER 7)
          GL_ARRAY_BUFFER 9) GL_UNIFORM_BUFFER
      = 7 :=
  ((mapping_distinct_and_map_isolated
      (GLHashMap.write GLBufferObjectMappingFunc
        (GLHashMap.new GLBufferObjectMappingFunc.Size) GL_UNIFORM_BUFFER 7)
      GL_ARRAY_BUFFER GL_UNIFORM_BUFFER 9).2.2.2.2.1
    (by decide) (by decide) (by decide)).trans (by decide)

end nCine

namespace Jazz2.UI

open nCine

/-- C10: when the HUD's graphics table is absent, `HUD::OnDraw` returns false and
leaves the queue as the base call `Canvas::OnDraw` left it, adding no render
command of its own, whatever the transition state and the player list. -/
theorem OnDraw_without_graphics (hud : HUD) (canvasOnDraw : RenderQueue → RenderQueue)
    (playerSection : List (String × Nat) → Nat → List RenderCommand)
    (transitionShader alphaBlend : Nat) (renderQueue : RenderQueue)
    (h : hud.graphics = none) :
    hud.OnDraw canvasOnDraw playerSection transitionShader alphaBlend renderQueue
      = (false, canvasOnDraw renderQueue) := by
  unfold HUD.OnDraw
  rw [h]

theorem OnDraw_without_graphics_witness :
    (HUD.mk none TransitionState.FadeIn 1 [0] (720, 405)).OnDraw id
        (fun _ _ => [⟨5, ⟨1, 0, 1⟩, ⟨[], 0, (0, 0, 0, 0), (0, 0)⟩⟩]) 7 1 RenderQueue.empty
      = (false, RenderQueue.empty) :=
  OnDraw_without_graphics (HUD.mk none TransitionState.FadeIn 1 [0] (720, 405)) id
    (fun _ _ => [⟨5, ⟨1, 0, 1⟩, ⟨[], 0, (0, 0, 0, 0), (0, 0)⟩⟩]) 7 1 RenderQueue.empty rfl

/-! ### HUD: construction -/

/-- C11, the code at the failing input: when the "UI/HUD" metadata is missing,
constructing the HUD dereferences the null graphics table (in the first call of
`CreateTouchButton`, for "TouchDpad"); with the metadata present the constructor
finishes, and `HUD::OnDraw` does guard the null table. -/
theorem construct_without_metadata_dereferences_null :
    HUD.construct none = Run.nullDereference
      ∧ CreateTouchButton none "None" "TouchDpad" ["BottomLeft"] = Run.nullDereference
      ∧ (HUD.construct (some [("TouchDpad", 1)])).finished = true := by
  decide

/-! ### Pass nodes -/

/-- C20: every auxiliary pass node - `LightingRenderer`, `BlurRenderPass`,
`CombineRenderer`, `UpscaleRenderPass`, `UpscaleRenderPassWithClipping` and
`AntialiasingSubpass` (also as the member `_antialiasing`) - is in the Disabled
visit-order state right after construction, for every owner and whatever state
the constructor of `SceneNode` left. -/
theorem pass_nodes_disabled_after_construction (base0 subpassBase0 : SceneNodeBase)
    (owner : Nat) :
    (Jazz2.LightingRenderer.new base0 owner).base.visitOrderState = VisitOrderState.Disabled
      ∧ (Jazz2.BlurRenderPass.new base0 owner).base.visitOrderState = VisitOrderState.Disabled
      ∧ (Jazz2.CombineRenderer.new base0 owner).base.visitOrderState = VisitOrderState.Disabled
      ∧ (UpscaleRenderPass.new base0 subpassBase0).base.visitOrderState
          = VisitOrderState.Disabled
      ∧ (UpscaleRenderPass.new base0 subpassBase0).antialiasing.base.visitOrderState
          = VisitOrderState.Disabled
      ∧ (UpscaleRenderPassWithClipping.new base0 subpassBase0).toUpscaleRenderPass.base.visitOrderState
          = VisitOrderState.Disabled
      ∧ (AntialiasingSubpass.new base0).base.visitOrderState = VisitOrderState.Disabled := by
  refine ⟨rfl, rfl, rfl, rfl, rfl, rfl, rfl⟩

end Jazz2.UI

namespace Death.FileSystem

/-! ### FileSystem: CombinePath -/

theorem charAt_append_last (init : List Char) (l : Char) :
    charAt (init ++ [l]) ((init ++ [l]).length - 1) = l := by
  simp [charAt, List.getD_eq_getElem?_getD, List.getElem?_append_right]

/-- C14: on the POSIX build `CombinePath(first, second)` returns `first` when
`second` is empty; returns `second` when `first` is empty or `second` begins
with a separator; and otherwise returns `first` followed by `second` with
exactly one `'/'` inserted between them, nothing being inserted when `first`
already ends with a separator. -/
theorem CombinePath_cases (first second : List Char) :
    (second = [] → CombinePath first second = first)
      ∧ (first = [] → CombinePath first second = second)
      ∧ (∀ c rest, second = c :: rest → isSeparator c = true →
          CombinePath first second = second)
      ∧ (∀ init l c rest, first = init ++ [l] → second = c :: rest →
          isSeparator c = false →
          CombinePath first second
            = if isSeparator l then first ++ second else first ++ ['/'] ++ second) := by
  refine ⟨?_, ?_, ?_, ?_⟩
  · intro h
    simp [CombinePath, h]
  · intro h
    subst h
    cases second <;> simp [CombinePath]
  · intro c rest h hc
    subst h
    simp [CombinePath, GetPathRootLength, hc]
  · intro init l c rest h1 h2 hc
    subst h1 h2
    have hl := charAt_append_last init l
    unfold CombinePath
    simp only [hl]
    simp [GetPathRootLength, hc]

theorem CombinePath_cases_witness :
    CombinePath "Content".toList "Tiles/a.png".toList = "Content/Tiles/a.png".toList
      ∧ CombinePath "Content/".toList "Tiles".toList = "Content/Tiles".toList :=
  ⟨((CombinePath_cases "Content".toList "Tiles/a.png".toList).2.2.2
      "Conten".toList 't' 'T' "iles/a.png".toList rfl rfl rfl).trans (by decide),
   ((CombinePath_cases "Content/".toList "Tiles".toList).2.2.2
      "Content".toList '/' 'T' "iles".toList rfl rfl rfl).trans (by decide)⟩

/-! ### FileSystem: GetFileName and GetDirectoryName -/

theorem take_succ_charAt (path : List Char) (n : Nat) (h : n < path.length) :
    path.take (n + 1) = path.take n ++ [charAt path n] := by
  rw [List.take_succ, List.getElem?_eq_getElem h]
  simp [charAt, List.getD_eq_getElem?_getD, List.getElem?_eq_getElem h]

theorem segment_succ (path : List Char) (root n : Nat) (h : n < path.length) (hr : root ≤ n) :
    (path.take (n + 1)).drop root = (path.take n).drop root ++ [charAt path n] := by
  rw [take_succ_charAt path n h, List.drop_append_of_le_length]
  rw [List.length_take]
  omega

theorem stripTrailing_spec (path : List Char) (root n : Nat) (hn : n ≤ path.length)
    (hr : root ≤ n) :
    root ≤ stripTrailing path root n ∧ stripTrailing path root n ≤ n
      ∧ (path.take (stripTrailing path root n)).drop root
          = ((path.take n).drop root).rdropWhile isSeparator := by
  induction n with
  | zero =>
    have h0 : root = 0 := by omega
    subst h0
    simp [stripTrailing]
  | succ n ih =>
    unfold stripTrailing
    split_ifs with hc
    · obtain ⟨h1, h2, h3⟩ := ih (by omega) (by omega)
      refine ⟨h1, by omega, ?_⟩
      rw [h3, segment_succ path root n (by omega) (by omega),
        List.rdropWhile_concat_pos _ _ _ hc.2]
    · refine ⟨hr, le_refl _, ?_⟩
      by_cases hlt : n + 1 > root
      · have hx : ¬ isSeparator (charAt path n) = true := fun hs => hc ⟨hlt, hs⟩
        rw [segment_succ path root n (by omega) (by omega),
          List.rdropWhile_concat_neg _ _ _ hx]
      · have he : root = n + 1 := by omega
        rw [he]
        have : (path.take (n + 1)).drop (n + 1) = [] := by
          apply List.drop_eq_nil_of_le
          rw [List.length_take]
          omega
        rw [this]
        rfl

theorem scanBack_spec (path : List Char) (root n : Nat) (hn : n ≤ path.length)
    (hr : root ≤ n) :
    root ≤ scanBack path root n ∧ scanBack path root n ≤ n
      ∧ (path.take (scanBack path root n)).drop root
          = (((path.take n).drop root).rdropWhile notSeparator).dropLast
      ∧ ((scanBack path root n < n ∧ isSeparator (charAt path (scanBack path root n)) = true
            ∧ (path.take n).drop (scanBack path root n + 1)
                = ((path.take n).drop root).rtakeWhile notSeparator)
          ∨ (scanBack path root n = root
            ∧ ∀ c ∈ (path.take n).drop root, notSeparator c = true)) := by
  induction n with
  | zero =>
    have h0 : root = 0 := by omega
    subst h0
    simp [scanBack]
  | succ n ih =>
    unfold scanBack
    by_cases hlt : n + 1 > root
    · rw [if_pos hlt]
      have hseg := segment_succ path root n (by omega) (by omega)
      by_cases hs : isSeparator (charAt path n) = true
      · rw [if_pos hs]
        have hns : ¬ notSeparator (charAt path n) = true := by simp [notSeparator, hs]
        refine ⟨by omega, by omega, ?_, Or.inl ⟨by omega, hs, ?_⟩⟩
        · rw [hseg, List.rdropWhile_concat_neg _ _ _ hns, List.dropLast_concat]
        · rw [hseg, List.rtakeWhile_concat_neg _ _ _ hns]
          apply List.drop_eq_nil_of_le
          rw [List.length_take]
          omega
      · rw [if_neg hs]
        have hns : notSeparator (charAt path n) = true := by simpa [notSeparator] using hs
        obtain ⟨h1, h2, h3, h4⟩ := ih (by omega) (by omega)
        refine ⟨h1, by omega, ?_, ?_⟩
        · rw [h3, hseg, List.rdropWhile_concat_pos _ _ _ hns]
        · rcases h4 with ⟨hi, hsep, htail⟩ | ⟨hi, hall⟩
          · refine Or.inl ⟨by omega, hsep, ?_⟩
            rw [hseg, List.rtakeWhile_concat_pos _ _ _ hns, ← htail,
              take_succ_charAt path n (by omega), List.drop_append_of_le_length]
            rw [List.length_take]
            omega
          · refine Or.inr ⟨hi, ?_⟩
            intro c hc
            rw [hseg] at hc
            rcases List.mem_append.mp hc with h | h
            · exact hall c h
            · rw [List.mem_singleton] at h
              rw [h]
              exact hns
    · rw [if_neg hlt]
      have he : root = n + 1 := by omega
      have hnil : (path.take (n + 1)).drop root = [] := by
        apply List.drop_eq_nil_of_le
        rw [List.length_take]
        omega
      refine ⟨by omega, le_refl _, ?_, Or.inr ⟨he.symm, ?_⟩⟩
      · rw [hnil]
        rfl
      · rw [hnil]
        simp

theorem rtakeWhile_after_failing (p : Char → Bool) (a s : List Char) (c : Char)
    (hc : ¬ p c = true) : (a ++ [c] ++ s).rtakeWhile p = s.rtakeWhile p := by
  induction s using List.reverseRecOn with
  | nil => simp [List.rtakeWhile_concat_neg _ _ _ hc]
  | append_singleton s x ih =>
    rw [← List.append_assoc]
    by_cases hx : p x = true
    · rw [List.rtakeWhile_concat_pos _ _ _ hx, List.rtakeWhile_concat_pos _ _ _ hx, ih]
    · rw [List.rtakeWhile_concat_neg _ _ _ hx, List.rtakeWhile_concat_neg _ _ _ hx]

theorem root_le_length (path : List Char) : GetPathRootLength path ≤ path.length := by
  cases path with
  | nil => simp [GetPathRootLength]
  | cons c rest =>
    simp only [GetPathRootLength, List.length_cons]
    split_ifs <;> omega

theorem root_take (path : List Char) :
    path.take (GetPathRootLength path) = []
      ∨ ∃ c, path.take (GetPathRootLength path) = [c] ∧ ¬ notSeparator c = true := by
  cases path with
  | nil => exact Or.inl rfl
  | cons c rest =>
    simp only [GetPathRootLength]
    by_cases hc : isSeparator c = true
    · rw [if_pos hc]
      exact Or.inr ⟨c, by simp, by simp [notSeparator, hc]⟩
    · rw [if_neg hc]
      exact Or.inl rfl

theorem afterFinalSeparator_stripped (path : List Char) :
    afterFinalSeparator (stripped path)
      = ((path.drop (GetPathRootLength path)).rdropWhile isSeparator).rtakeWhile
          notSeparator := by
  unfold afterFinalSeparator stripped
  rcases root_take path with h | ⟨c, h, hc⟩
  · rw [h, List.nil_append]
  · rw [h]
    have := rtakeWhile_after_failing notSeparator []
      ((path.drop (GetPathRootLength path)).rdropWhile isSeparator) c hc
    simpa using this

theorem stripped_eq_self (path : List Char)
    (h : ∀ c, path.getLast? = some c → isSeparator c = false) : stripped path = path := by
  unfold stripped
  have hd : (path.drop (GetPathRootLength path)).rdropWhile isSeparator
      = path.drop (GetPathRootLength path) := by
    rw [List.rdropWhile_eq_self_iff]
    intro hne
    have hlast : (path.drop (GetPathRootLength path)).getLast? = path.getLast? := by
      rw [List.getLast?_drop, if_neg]
      intro hle
      exact hne (List.drop_eq_nil_of_le hle)
    have hsome := List.getLast?_eq_getLast _ hne
    rw [hlast] at hsome
    rw [h _ hsome]
    simp
  rw [hd, List.take_append_drop]

theorem GetFileName_eq (path : List Char) :
    GetFileName path = afterFinalSeparator (stripped path) := by
  rw [afterFinalSeparator_stripped]
  unfold GetFileName
  by_cases hempty : path.isEmpty = true
  · rw [if_pos hempty]
    have : path = [] := List.isEmpty_iff.mp hempty
    subst this
    rfl
  · rw [if_neg hempty]
    simp only
    obtain ⟨h1, h2, h3⟩ := stripTrailing_spec path (GetPathRootLength path) path.length
      (le_refl _) (root_le_length path)
    rw [List.take_length] at h3
    rw [← h3]
    by_cases hle : stripTrailing path (GetPathRootLength path) path.length
        ≤ GetPathRootLength path
    · rw [if_pos hle]
      have hnil : (path.take (stripTrailing path (GetPathRootLength path) path.length)).drop
          (GetPathRootLength path) = [] := by
        apply List.drop_eq_nil_of_le
        rw [List.length_take]
        omega
      rw [hnil]
      rfl
    · rw [if_neg hle]
      obtain ⟨s1, s2, _, s4⟩ := scanBack_spec path (GetPathRootLength path)
        (stripTrailing path (GetPathRootLength path) path.length) h2 h1
      rcases s4 with ⟨hi, hsep, htail⟩ | ⟨hi, hall⟩
      · rw [if_pos hsep]
        exact htail
      · have hmem : charAt path (GetPathRootLength path)
            ∈ (path.take (stripTrailing path (GetPathRootLength path) path.length)).drop
                (GetPathRootLength path) := by
          have hlt : GetPathRootLength path
              < stripTrailing path (GetPathRootLength path) path.length := by omega
          have hlen : GetPathRootLength path < path.length := by omega
          rw [List.mem_iff_getElem?]
          refine ⟨0, ?_⟩
          rw [List.getElem?_drop, List.getElem?_take_of_lt (by omega)]
          simp [charAt, List.getD_eq_getElem?_getD, List.getElem?_eq_getElem hlen]
        have hns := hall _ hmem
        have hnot : ¬ isSeparator (charAt path (GetPathRootLength path)) = true := by
          simpa [notSeparator] using hns
        rw [hi, if_neg hnot]
        unfold slice
        exact (List.rtakeWhile_eq_self_iff.mpr hall).symm

theorem GetDirectoryName_eq (path : List Char) :
    GetDirectoryName path
      = if (path.drop (GetPathRootLength path)).rdropWhile isSeparator = [] then []
        else path.take (GetPathRootLength path)
          ++ beforeFinalSeparator ((path.drop (GetPathRootLength path)).rdropWhile isSeparator) := by
  unfold GetDirectoryName
  by_cases hempty : path.isEmpty = true
  · rw [if_pos hempty]
    have : path = [] := List.isEmpty_iff.mp hempty
    subst this
    rfl
  · rw [if_neg hempty]
    simp only
    obtain ⟨h1, h2, h3⟩ := stripTrailing_spec path (GetPathRootLength path) path.length
      (le_refl _) (root_le_length path)
    rw [List.take_length] at h3
    rw [← h3]
    by_cases hle : stripTrailing path (GetPathRootLength path) path.length
        ≤ GetPathRootLength path
    · rw [if_pos hle]
      have hnil : (path.take (stripTrailing path (GetPathRootLength path) path.length)).drop
          (GetPathRootLength path) = [] := by
        apply List.drop_eq_nil_of_le
        rw [List.length_take]
        omega
      rw [if_pos hnil]
    · rw [if_neg hle]
      have hne : ¬ (path.take (stripTrailing path (GetPathRootLength path) path.length)).drop
          (GetPathRootLength path) = [] := by
        intro hnil
        have := congrArg List.length hnil
        rw [List.length_drop, List.length_take] at this
        simp only [List.length_nil] at this
        omega
      rw [if_neg hne]
      obtain ⟨s1, s2, s3, _⟩ := scanBack_spec path (GetPathRootLength path)
        (stripTrailing path (GetPathRootLength path) path.length) h2 h1
      unfold slice beforeFinalSeparator
      rw [← s3, List.drop_zero]
      have hsplit := List.take_append_drop (GetPathRootLength path)
        (path.take (scanBack path (GetPathRootLength path)
          (stripTrailing path (GetPathRootLength path) path.length)))
      rw [List.take_take, Nat.min_eq_left s1] at hsplit
      exact hsplit.symm

/-- C15 (as amended): on the POSIX build `GetFileName(path)` is the part after
the final separator of the path with its trailing separators stripped (a leading
separator, the root, is kept), the whole stripped path when that holds no
separator; for a path that does not end with a separator it is the part of the
path after its final separator. -/
theorem GetFileName_after_final_separator (path : List Char) :
    GetFileName path = afterFinalSeparator (stripped path)
      ∧ ((∀ c, path.getLast? = some c → isSeparator c = false) →
          GetFileName path = afterFinalSeparator path) := by
  refine ⟨GetFileName_eq path, ?_⟩
  intro h
  rw [GetFileName_eq, stripped_eq_self path h]

theorem GetFileName_after_final_separator_witness :
    GetFileName "Content/Tiles/a.png".toList = "a.png".toList :=
  ((GetFileName_after_final_separator "Content/Tiles/a.png".toList).2
    (by decide)).trans (by decide)

/-- C15, the claim as stated fails: for the path "a/b/" the part after the final
separator is empty, while `GetFileName` strips the trailing separator and
returns "b". -/
theorem GetFileName_strips_trailing_separator :
    GetFileName "a/b/".toList = "b".toList
      ∧ afterFinalSeparator "a/b/".toList = [] := by
  decide

/-- C16 (as amended): on the POSIX build `GetDirectoryName(path)` sets the root
(a leading separator) aside and strips the trailing separators of the remainder;
it is empty when nothing remains, and otherwise it is the root followed by the
part of the stripped remainder that ends just before its final separator (the
root alone when the remainder holds no separator).  For a path with no leading
and no trailing separator this is the prefix of the path that ends just before
its final separator, empty when the path holds no separator. -/
theorem GetDirectoryName_before_final_separator (path : List Char) :
    GetDirectoryName path
        = (if (path.drop (GetPathRootLength path)).rdropWhile isSeparator = [] then []
          else path.take (GetPathRootLength path)
            ++ beforeFinalSeparator
                ((path.drop (GetPathRootLength path)).rdropWhile isSeparator))
      ∧ (GetPathRootLength path = 0 →
          (∀ c, path.getLast? = some c → isSeparator c = false) →
          GetDirectoryName path = beforeFinalSeparator path) := by
  refine ⟨GetDirectoryName_eq path, ?_⟩
  intro hroot hlast
  have hs := stripped_eq_self path hlast
  unfold stripped at hs
  rw [hroot] at hs
  simp only [List.take_zero, List.nil_append, List.drop_zero] at hs
  rw [GetDirectoryName_eq, hroot]
  simp only [List.take_zero, List.nil_append, List.drop_zero]
  rw [hs]
  split_ifs with hnil
  · rw [hnil]
    rfl
  · rfl

theorem GetDirectoryName_before_final_separator_witness :
    GetDirectoryName "Content/Tiles/a.png".toList = "Content/Tiles".toList :=
  ((GetDirectoryName_before_final_separator "Content/Tiles/a.png".toList).2
    (by decide) (by decide)).trans (by decide)

/-- C16, the claim as stated fails: for "/a" the prefix that ends just before the
final separator is empty, while `GetDirectoryName` returns the root "/"; and for
"a/b/" that prefix is "a/b", while `GetDirectoryName` strips the trailing
separator and returns "a". -/
theorem GetDirectoryName_keeps_root_strips_trailing :
    GetDirectoryName "/a".toList = "/".toList
      ∧ beforeFinalSeparator "/a".toList = []
      ∧ GetDirectoryName "a/b/".toList = "a".toList
      ∧ beforeFinalSeparator "a/b/".toList = "a/b".toList := by
  decide

/-! ### FileSystem: GetExtension -/

theorem findLast_none_iff (c : Char) (l : List Char) : findLast c l = none ↔ c ∉ l := by
  induction l with
  | nil => simp [findLast]
  | cons x xs ih =>
    unfold findLast
    cases h : findLast c xs with
    | some i =>
      have hmem : c ∈ xs := by
        by_contra hc
        rw [ih.mpr hc] at h
        cases h
      simp [hmem]
    | none =>
      have hnot : c ∉ xs := ih.mp h
      by_cases hx : x = c
      · simp [hx]
      · have hx2 : ¬ c = x := fun e => hx e.symm
        simp [hx, hx2, hnot]

theorem findLast_some_drop (c : Char) (l : List Char) (d : Nat) (h : findLast c l = some d) :
    c ∉ l.drop (d + 1) := by
  induction l generalizing d with
  | nil => simp [findLast] at h
  | cons x xs ih =>
    unfold findLast at h
    cases hf : findLast c xs with
    | some i =>
      rw [hf] at h
      simp only [Option.some.injEq] at h
      subst h
      simpa using ih i hf
    | none =>
      rw [hf] at h
      simp only at h
      split_ifs at h
      simp only [Option.some.injEq] at h
      subst h
      simpa using (findLast_none_iff c xs).mp hf

theorem isUpper_iff (c : Char) : c.isUpper = true ↔ 65 ≤ c.toNat ∧ c.toNat ≤ 90 := by
  simp [Char.isUpper, Char.toNat, UInt32.le_def, UInt32.toNat, BitVec.le_def]

theorem lowerAscii_spec (c : Char) :
    (lowerAscii c).isUpper = false ∧ (c ≠ '.' → lowerAscii c ≠ '.') := by
  unfold lowerAscii
  split_ifs with h
  · have h1 : 65 ≤ c.toNat := h.1
    have h2 : c.toNat ≤ 90 := h.2
    generalize c.toNat = n at h1 h2
    constructor
    · interval_cases n <;> decide
    · intro _
      interval_cases n <;> decide
  · constructor
    · by_contra hu
      have hu2 : c.isUpper = true := by simpa using hu
      exact h ((isUpper_iff c).mp hu2)
    · exact id

/-- C17: for every path, `GetExtension(path)` contains no `'.'` and no upper-case
ASCII letter, and it is empty whenever the file name of the path contains no
`'.'`. -/
theorem GetExtension_no_dot_no_upper (path : List Char) :
    '.' ∉ GetExtension path
      ∧ (∀ c ∈ GetExtension path, c.isUpper = false)
      ∧ ('.' ∉ GetFileName path → GetExtension path = []) := by
  unfold GetExtension
  simp only
  split_ifs with hempty
  · simp
  · cases hf : findLast '.' (GetFileName path) with
    | none => simp
    | some d =>
      simp only
      split_ifs with hdots
      · refine ⟨by simp, by simp, fun _ => rfl⟩
      · refine ⟨?_, ?_, ?_⟩
        · intro hmem
          obtain ⟨c, hc, hlow⟩ := List.mem_map.mp hmem
          have hne : c ≠ '.' := by
            intro e
            rw [e] at hc
            exact findLast_some_drop '.' _ d hf hc
          exact (lowerAscii_spec c).2 hne hlow
        · intro c hmem
          obtain ⟨c0, _, hlow⟩ := List.mem_map.mp hmem
          rw [← hlow]
          exact (lowerAscii_spec c0).1
        · intro hno
          rw [(findLast_none_iff '.' _).mpr hno] at hf
          cases hf

theorem GetExtension_no_dot_no_upper_witness :
    GetExtension "Content/Tiles/Map.J2L".toList = "j2l".toList
      ∧ '.' ∉ GetExtension "Content/Tiles/Map.J2L".toList :=
  ⟨by decide, (GetExtension_no_dot_no_upper "Content/Tiles/Map.J2L".toList).1⟩

/-! ### FileSystem: ChangePermissions -/

theorem lowerAscii_eq_toLower (c : Char) : lowerAscii c = c.toLower := by
  unfold lowerAscii Char.toLower
  simp only [ge_iff_le]
  have hA : 'A'.toNat = 65 := by decide
  have hZ : 'Z'.toNat = 90 := by decide
  rw [hA, hZ]
  split_ifs with h
  · have h1 := h.1
    have h2 := h.2
    generalize c.toNat = n at h1 h2
    interval_cases n <;> decide
  · rfl

theorem findLast_some_getElem? (c : Char) (l : List Char) (d : Nat)
    (h : findLast c l = some d) : l[d]? = some c := by
  induction l generalizing d with
  | nil => simp [findLast] at h
  | cons x xs ih =>
    unfold findLast at h
    cases hf : findLast c xs with
    | some i =>
      rw [hf] at h
      simp only [Option.some.injEq] at h
      subst h
      simpa using ih i hf
    | none =>
      rw [hf] at h
      simp only at h
      split_ifs at h with hx
      simp only [Option.some.injEq] at h
      subst h
      simp [hx]

theorem split_at_getElem? (l : List Char) (d : Nat) (c : Char) (h : l[d]? = some c) :
    l = l.take d ++ [c] ++ l.drop (d + 1) := by
  have hlt : d < l.length := by
    by_contra hge
    rw [List.getElem?_eq_none_iff.mpr (Nat.le_of_not_lt hge)] at h
    cases h
  have hc : l[d] = c := by
    rw [List.getElem?_eq_getElem hlt] at h
    exact Option.some.inj h
  rw [List.append_assoc, List.singleton_append, ← hc, ← List.drop_eq_getElem_cons hlt,
    List.take_append_drop]

theorem leading_dots_take (k : Nat) (rest : List Char) (d : Nat) (hrest : '.' ∉ rest)
    (h : (List.replicate k '.' ++ rest)[d]? = some '.') :
    ((List.replicate k '.' ++ rest).take d).all (fun c => c == '.') = true := by
  have hd : d < k := by
    by_contra hge
    rw [List.getElem?_append_right (by simpa using Nat.le_of_not_lt hge)] at h
    exact hrest (List.getElem?_mem h)
  rw [List.take_append_of_le_length (by simpa using Nat.le_of_lt hd)]
  rw [List.all_eq_true]
  intro c hc
  have hmem : c ∈ List.replicate k '.' := List.mem_of_mem_take hc
  rw [List.mem_replicate] at hmem
  simp [hmem.2]

/-- C21: for every path with file name `f = GetFileName(path)`, either
`GetFileNameWithoutExtension(path) = f` and `GetExtension(path)` is empty, or
`f = GetFileNameWithoutExtension(path) ++ "." ++ e` for a string `e` whose ASCII
lower-casing is `GetExtension(path)`; and a file name whose only dots are
leading ones is returned whole, with an empty extension. -/
theorem stem_and_extension_split (path : List Char) :
    ((GetFileNameWithoutExtension path = GetFileName path ∧ GetExtension path = [])
        ∨ ∃ e, GetFileName path = GetFileNameWithoutExtension path ++ ['.'] ++ e
            ∧ e.map Char.toLower = GetExtension path)
      ∧ (∀ k rest, GetFileName path = List.replicate k '.' ++ rest → '.' ∉ rest →
          GetFileNameWithoutExtension path = GetFileName path ∧ GetExtension path = []) := by
  unfold GetFileNameWithoutExtension GetExtension
  simp only
  by_cases hempty : (GetFileName path).isEmpty = true
  · simp only [hempty, if_true]
    have hnil : GetFileName path = [] := List.isEmpty_iff.mp hempty
    exact ⟨Or.inl ⟨hnil.symm, trivial⟩, fun _ _ _ _ => ⟨hnil.symm, trivial⟩⟩
  · simp only [hempty]
    cases hf : findLast '.' (GetFileName path) with
    | none => exact ⟨Or.inl ⟨rfl, rfl⟩, fun _ _ _ _ => ⟨rfl, rfl⟩⟩
    | some d =>
      simp only
      have hget := findLast_some_getElem? '.' _ d hf
      by_cases hdots : ((GetFileName path).take d).all (fun c => c == '.') = true
      · simp only [hdots, if_true]
        exact ⟨Or.inl ⟨rfl, rfl⟩, fun _ _ _ _ => ⟨rfl, rfl⟩⟩
      · simp only [hdots]
        refine ⟨Or.inr ⟨(GetFileName path).drop (d + 1), ?_, ?_⟩, ?_⟩
        · exact split_at_getElem? _ d '.' hget
        · apply List.map_congr_left
          intro c _
          exact (lowerAscii_eq_toLower c).symm
        · intro k rest hk hrest
          rw [hk] at hget hdots
          exact absurd (leading_dots_take k rest d hrest hget) hdots

theorem stem_and_extension_split_witness :
    GetFileNameWithoutExtension "/home/user/.bashrc".toList = ".bashrc".toList
      ∧ GetExtension "/home/user/.bashrc".toList = [] :=
  have h := (stem_and_extension_split "/home/user/.bashrc".toList).2 1 "bashrc".toList
    (by decide) (by decide)
  ⟨h.1.trans (by decide), h.2⟩

/-! ### FileSystem: the two CombinePath overloads -/

theorem writePaths_append (count : Nat) (l1 l2 : List (List Char)) (i : Nat)
    (written : List Char) :
    writePaths count i (l1 ++ l2) written
      = writePaths count (i + l1.length) l2 (writePaths count i l1 written) := by
  induction l1 generalizing i written with
  | nil => simp [writePaths]
  | cons p rest ih =>
    have e : i + (p :: rest).length = i + 1 + rest.length := by
      simp only [List.length_cons]
      omega
    rw [e]
    simp only [List.cons_append, writePaths]
    split_ifs <;> exact ih _ _

theorem scanPaths_sound (count : Nat) (rest before : List (List Char))
    (resultSize startIdx : Nat) (hs : startIdx ≤ before.length)
    (hw : (writePaths count startIdx (before.drop startIdx) []).length = resultSize) :
    (scanPaths count before.length rest (resultSize, startIdx)).2 ≤ (before ++ rest).length
      ∧ (writePaths count (scanPaths count before.length rest (resultSize, startIdx)).2
            ((before ++ rest).drop
              (scanPaths count before.length rest (resultSize, startIdx)).2) []).length
          = (scanPaths count before.length rest (resultSize, startIdx)).1 := by
  induction rest generalizing before resultSize startIdx with
  | nil =>
    simp only [scanPaths, List.append_nil]
    exact ⟨hs, hw⟩
  | cons p rest ih =>
    have hlen : (before ++ [p]).length = before.length + 1 := by simp
    have hassoc : before ++ p :: rest = (before ++ [p]) ++ rest := by simp
    have hdrop : ∀ s, s ≤ before.length →
        (before ++ [p]).drop s = before.drop s ++ [p] := fun s h =>
      List.drop_append_of_le_length h
    have hstep : ∀ s, s ≤ before.length →
        writePaths count s ((before ++ [p]).drop s) []
          = writePaths count before.length [p] (writePaths count s (before.drop s) []) := by
      intro s h
      rw [hdrop s h, writePaths_append, List.length_drop]
      congr 1
      omega
    unfold scanPaths
    simp only
    rw [hassoc, ← hlen]
    by_cases hp : p.length = 0
    · rw [if_pos hp]
      apply ih (before ++ [p]) resultSize startIdx (by rw [hlen]; omega)
      rw [hstep startIdx hs]
      simp only [writePaths, hp, if_true]
      exact hw
    · rw [if_neg hp]
      by_cases hroot : GetPathRootLength p > 0
      · simp only [hroot, if_true]
        apply ih (before ++ [p]) _ before.length (by rw [hlen]; omega)
        have hd : (before ++ [p]).drop before.length = [p] := by simp
        rw [hd]
        simp only [writePaths, hp, if_false, List.nil_append, Nat.zero_add, hlen]
        split_ifs <;> simp
      · simp only [hroot, if_false]
        apply ih (before ++ [p]) _ startIdx (by rw [hlen]; omega)
        rw [hstep startIdx hs]
        simp only [writePaths, hp, if_false, hlen]
        split_ifs <;> simp [hw]
        omega

theorem CombinePaths_length (paths : List (List Char)) :
    (CombinePaths paths).length = (scanPaths paths.length 0 paths (0, 0)).1 := by
  unfold CombinePaths
  by_cases he : paths.isEmpty = true
  · have : paths = [] := List.isEmpty_iff.mp he
    subst this
    rfl
  · rw [if_neg he]
    have := scanPaths_sound paths.length paths [] 0 0 (le_refl _) rfl
    simpa using this.2

theorem CombinePaths_pair (first second : List Char)
    (h : second ≠ [] ∨ first = [] ∨ isSeparator (charAt first (first.length - 1)) = true) :
    CombinePaths [first, second] = CombinePath first second := by
  have e1 : first.length = 0 ↔ first = [] := List.length_eq_zero
  have e2 : second.length = 0 ↔ second = [] := List.length_eq_zero
  unfold CombinePaths CombinePath
  simp only [List.isEmpty_cons, Bool.false_eq_true, if_false, List.length_cons,
    List.length_nil, scanPaths, Nat.zero_add, Nat.reduceAdd, Nat.lt_irrefl, false_and,
    Nat.reduceLT, true_and, e1, e2]
  by_cases h1 : first = []
  · subst h1
    by_cases h2 : second = []
    · subst h2
      simp [writePaths]
    · by_cases hr2 : GetPathRootLength second > 0 <;>
        simp [h2, hr2, writePaths]
  · by_cases h2 : second = []
    · subst h2
      have hs : isSeparator (charAt first (first.length - 1)) = true := by
        rcases h with h | h | h
        · exact absurd rfl h
        · exact absurd h h1
        · exact h
      by_cases hr1 : GetPathRootLength first > 0 <;>
        simp [h1, hr1, hs, writePaths]
    · by_cases hr1 : GetPathRootLength first > 0 <;>
        by_cases hr2 : GetPathRootLength second > 0 <;>
        by_cases hs : isSeparator (charAt first (first.length - 1)) = true <;>
        simp [h1, h2, hr1, hr2, hs, writePaths]

/-- C23 (divergence): on the pair `{"a", ""}` the two `CombinePath` overloads
disagree. `CombinePath("a", "")` returns `"a"` through its guard
`if (secondSize == 0) return first;`, while the list overload skips the empty
component but has already appended a separator after `"a"` because
`i + 1 < count` held, and returns `"a/"`. -/
theorem CombinePath_overloads_differ_on_empty_second :
    CombinePath "a".toList "".toList = "a".toList
      ∧ CombinePaths ["a".toList, "".toList] = "a/".toList
      ∧ CombinePaths ["a".toList, "".toList] ≠ CombinePath "a".toList "".toList := by
  decide

end Death.FileSystem
